import Mathlib

/-!
Verification of the finite-state-automata engine
(HikariIT/finite-state-automata, directory `src/automatons/`).

The Python code is shallowly embedded:
* Python `dict`s become association lists (`alookup` / `aupsert`, matching
  dict lookup and `d[k] = v` assignment);
* Python `set`s of states become `Finset State` (Python compares set members
  with `==`; `State` defines no `__eq__`/`__hash__`, so member equality is
  object identity — the automata keep one canonical `State` object per name
  in `state_map`, and all well-formedness hypotheses below require unique
  names, under which identity equality coincides with value equality of the
  embedded `State` records);
* raising an exception becomes `Except PyErr`;
* unbounded `while`/recursion becomes structural recursion on a fuel
  parameter (`none` / `.error .recursionLimit` = the computation has not
  finished within the given depth).
-/

namespace FSA

/-- Error kinds raised by the Python code.  The `exceptions` module itself is
not among the sources, so constructors are named after the spec's error
vocabulary (§7) and each is tied to the raise site it models:
* `invalidSymbol`   — `InvalidSymbolError` (bad symbol in a word / reserved epsilon);
* `noStartState`    — `InvalidStateError("There is no starting state")`;
* `duplicateStartState` — `InvalidStateError("Automaton can't have more than one start state")`;
* `undefinedTransition` — `TransitionFunctionError` (deterministic lookup, no entry);
* `danglingTarget`  — `KeyError("State with name ... is not defined")` (spec: *DanglingTarget*);
* `keyError`        — any other `KeyError` (e.g. `transition_map[state.name]` with no row);
* `indexError`      — `list(...)[0]` on an empty collection;
* `attributeError`  — attribute access on `None` (e.g. iterating from a `None` start state);
* `emptyAutomaton`  — `Exception("Can't print table for empty automaton")`;
* `recursionLimit`  — Python `RecursionError` (models exhaustion of the fuel). -/
inductive PyErr where
  | invalidSymbol
  | noStartState
  | duplicateStartState
  | undefinedTransition
  | danglingTarget
  | keyError
  | indexError
  | attributeError
  | emptyAutomaton
  | recursionLimit
deriving DecidableEq, Repr

instance {ε α : Type} [DecidableEq ε] [DecidableEq α] : DecidableEq (Except ε α) :=
  fun x y =>
    match x, y with
    | .error a, .error b => decidable_of_iff (a = b) (by simp)
    | .ok a, .ok b => decidable_of_iff (a = b) (by simp)
    | .error _, .ok _ => isFalse (by simp)
    | .ok _, .error _ => isFalse (by simp)

/-- Association-list lookup: Python `d[k]` / `k in d`. -/
def alookup {β : Type} (k : String) : List (String × β) → Option β
  | [] => none
  | p :: rest => if p.1 = k then some p.2 else alookup k rest

/-- Association-list update: Python `d[k] = v` (replace in place, else append;
dicts keep first-insertion key order). -/
def aupsert {β : Type} (k : String) (v : β) : List (String × β) → List (String × β)
  | [] => [(k, v)]
  | p :: rest => if p.1 = k then (k, v) :: rest else p :: aupsert k v rest

/-- Index of the first occurrence of `x`, if any. -/
def idxOf? {α : Type} [DecidableEq α] (x : α) : List α → Option Nat
  | [] => none
  | y :: l => if y = x then some 0 else (idxOf? x l).map (· + 1)

/-- Python `set.add` on a set modelled as a duplicate-free list. -/
def setAdd {α : Type} [DecidableEq α] (l : List α) (x : α) : List α :=
  if x ∈ l then l else l ++ [x]

/-- Python `set.update` with an iterable. -/
def setAddAll {α : Type} [DecidableEq α] (l : List α) (xs : List α) : List α :=
  xs.foldl setAdd l

/-- Decimal digit character, the characters Python's `str(i)` produces. -/
def decDigitChar : Nat → Char
  | 0 => '0' | 1 => '1' | 2 => '2' | 3 => '3' | 4 => '4'
  | 5 => '5' | 6 => '6' | 7 => '7' | 8 => '8' | _ => '9'

/-- Decimal digits of `n`, most significant first, fuel-structural so that it
reduces in the kernel.  `decCharsAux f n` is the rendering of `n` provided
`n ≤ f`. -/
def decCharsAux : Nat → Nat → List Char
  | _, 0 => []
  | 0, _ + 1 => []
  | f + 1, n + 1 => decCharsAux f ((n + 1) / 10) ++ [decDigitChar ((n + 1) % 10)]

/-- Python `str(n)` for a natural number: decimal rendering. -/
def decChars (n : Nat) : List Char :=
  if n = 0 then ['0'] else decCharsAux n n

/-- Python `f"s{i}"`, the synthetic state names of `NFA.convert_to_dfa`. -/
def sName (i : Nat) : String := String.mk ('s' :: decChars i)

/-- Python `f"r{index}"`, the merged-state names of `DFA._merge_states`. -/
def rName (i : Nat) : String := String.mk ('r' :: decChars i)

/-- `State` (src/automatons/structures/state.py): a name and two role flags. -/
structure State where
  name : String
  is_starting : Bool
  is_accepting : Bool
deriving DecidableEq, Repr

/-- A Python `State` *object* for claims about `==`/`hash` themselves:
`state.py` defines neither `__eq__` nor `__hash__`, so CPython falls back to
object identity; `oid` models the allocation identity `id(obj)` (distinct
allocations receive distinct `oid`s). -/
structure PyStateObj where
  oid : Nat
  name : String
  is_starting : Bool
  is_accepting : Bool
deriving DecidableEq, Repr

/-- Python `==` on two `State` objects: default `object.__eq__`, identity. -/
def pyStateEq (a b : PyStateObj) : Bool := a.oid == b.oid

/-- Python `hash` on a `State` object: default `object.__hash__`, a function
of the object identity only. -/
def pyStateHash (a : PyStateObj) : Nat := a.oid

/-- Lexicographic comparison of character lists by character code; used to
give each embedded state set one fixed enumeration order. -/
def charsLe : List Char → List Char → Bool
  | [], _ => true
  | _ :: _, [] => false
  | a :: as, b :: bs =>
    if a.toNat = b.toNat then charsLe as bs else decide (a.toNat < b.toNat)

/-- A total order on strings (by character codes) whose decision procedure
reduces inside the kernel. -/
def strle (a b : String) : Prop := charsLe a.data b.data = true

instance : DecidableRel strle := fun _ _ => inferInstanceAs (Decidable (_ = true))

instance : IsTotal String strle where
  total a b := by
    suffices h : ∀ x y : List Char, charsLe x y = true ∨ charsLe y x = true from
      h a.data b.data
    intro x
    induction x with
    | nil => intro y; left; rfl
    | cons c cs ih =>
      intro y
      match y with
      | [] => right; rfl
      | d :: ds =>
        by_cases hcd : c.toNat = d.toNat
        · rcases ih ds with h | h
          · left; rw [charsLe, if_pos hcd]; exact h
          · right; rw [charsLe, if_pos hcd.symm]; exact h
        · by_cases hlt : c.toNat < d.toNat
          · left; rw [charsLe, if_neg hcd]; exact decide_eq_true hlt
          · right; rw [charsLe, if_neg (fun h => hcd h.symm)]
            exact decide_eq_true (by omega)

instance : IsTrans String strle where
  trans a b c hab hbc := by
    suffices h : ∀ x y z : List Char, charsLe x y = true → charsLe y z = true →
        charsLe x z = true from h a.data b.data c.data hab hbc
    intro x
    induction x with
    | nil => intro y z _ _; rfl
    | cons cx xs ih =>
      intro y z hxy hyz
      match y, z with
      | [], _ => exact absurd hxy (by rw [charsLe]; simp)
      | _ :: _, [] => exact absurd hyz (by rw [charsLe]; simp)
      | cy :: ys, cz :: zs =>
        rw [charsLe] at hxy hyz ⊢
        by_cases h1 : cx.toNat = cy.toNat
        · rw [if_pos h1] at hxy
          by_cases h2 : cy.toNat = cz.toNat
          · rw [if_pos h2] at hyz
            rw [if_pos (h1.trans h2)]
            exact ih ys zs hxy hyz
          · rw [if_neg h2] at hyz
            rw [if_neg (fun h => h2 (by rw [← h1]; exact h)), h1]
            exact hyz
        · rw [if_neg h1] at hxy
          have hlt1 : cx.toNat < cy.toNat := of_decide_eq_true hxy
          by_cases h2 : cy.toNat = cz.toNat
          · rw [if_pos h2] at hyz
            rw [if_neg (by omega)]
            exact decide_eq_true (by omega)
          · rw [if_neg h2] at hyz
            have hlt2 : cy.toNat < cz.toNat := of_decide_eq_true hyz
            rw [if_neg (by omega)]
            exact decide_eq_true (by omega)

instance : IsAntisymm String strle where
  antisymm a b hab hba := by
    apply String.ext
    suffices h : ∀ x y : List Char, charsLe x y = true → charsLe y x = true → x = y from
      h a.data b.data hab hba
    intro x
    induction x with
    | nil =>
      intro y h1 h2
      match y with
      | [] => rfl
      | c :: cs => exact absurd h2 (by rw [charsLe]; simp)
    | cons cx xs ih =>
      intro y h1 h2
      match y with
      | [] => exact absurd h1 (by rw [charsLe]; simp)
      | cy :: ys =>
        rw [charsLe] at h1 h2
        by_cases hc : cx.toNat = cy.toNat
        · rw [if_pos hc] at h1
          rw [if_pos hc.symm] at h2
          have htail := ih ys h1 h2
          have hchar : cx = cy := Char.ext (UInt32.ext hc)
          rw [hchar, htail]
        · rw [if_neg hc] at h1
          rw [if_neg (fun h => hc h.symm)] at h2
          have l1 := of_decide_eq_true h1
          have l2 := of_decide_eq_true h2
          omega

def sortedNames (m : Multiset String) : List String :=
  Quot.liftOn m (fun l => l.insertionSort strle)
    (fun l1 l2 h => List.eq_of_perm_of_sorted
      ((List.perm_insertionSort _ l1).trans
        ((Quotient.exact (Quot.sound h)).trans (List.perm_insertionSort _ l2).symm))
      (List.sorted_insertionSort _ l1) (List.sorted_insertionSort _ l2))

/-- A Python `set` of states is embedded as the `Finset` of the member
*names*.  Python compares set members with default (identity) equality, and
every state circulating through the algorithms is the canonical per-name
object held in `state_map`, so under the unique-name well-formedness
hypotheses used throughout, identity of members coincides with equality of
names.  Iterating a set is embedded as iterating `namesList` (a fixed,
deterministic order standing in for Python's unspecified set order). -/
def namesList (S : Finset String) : List String := sortedNames S.val

/-- `NonDeterministicTransitionFunction` (transition_function.py, 81-108):
`transition_map` is a dict from state name to a dict from symbol to a set of
target names; `state_map` resolves names to live states. -/
structure NTF where
  symbols : List String
  transition_map : List (String × List (String × Finset String))
  state_map : List (String × State)
deriving DecidableEq

/-- Resolved targets of a stored name set (the `set(self.state_map[name] for
name in state_names)` comprehension), as the list of the member objects. -/
def NTF.resolve (f : NTF) (names : Finset String) : List State :=
  (namesList names).filterMap (fun n => alookup n f.state_map)

/-- `NonDeterministicTransitionFunction.__call__` (lines 88-96):
`transition_map[state.name]` raises `KeyError` when the state has no row; a
missing symbol entry yields the empty set; a stored name that does not
resolve raises `KeyError("State with name ... is not defined")`
(spec: *DanglingTarget*).  The returned set of states is embedded as the
list of its member objects. -/
def NTF.call (f : NTF) (st : State) (a : String) : Except PyErr (List State) :=
  match alookup st.name f.transition_map with
  | none => .error .keyError
  | some row =>
    match alookup a row with
    | none => .ok []
    | some names =>
      if (namesList names).all (fun n => (alookup n f.state_map).isSome) then
        .ok (f.resolve names)
      else .error .danglingTarget

/-- `__call__` reads nothing of the state argument but its name, so iterating
a name-set and calling the transition function on each member is embedded by
calling on the name alone. -/
def NTF.callName (f : NTF) (n : String) (a : String) : Except PyErr (List State) :=
  f.call ⟨n, false, false⟩ a

/-- The stored target-name set for `(state-name, symbol)`; `∅` both when the
row or the entry is absent.  Under the well-formedness hypotheses this is the
name-set of the value of a non-raising `NTF.call`. -/
def NTF.tgt (f : NTF) (n a : String) : Finset String :=
  match alookup n f.transition_map with
  | none => ∅
  | some row =>
    match alookup a row with
    | none => ∅
    | some names => names

/-- One row of transitions built by `set_transitions_for_state`:
`for symbol, target in zip(self.symbols, targets): row[symbol] = target`. -/
def rowFold {β : Type} (syms : List String) (tgts : List β) : List (String × β) :=
  (syms.zip tgts).foldl (fun r p => aupsert p.1 p.2 r) []

/-- `DeterministicTransitionFunction` (transition_function.py, 39-66):
one target name per (state, symbol). -/
structure DTF where
  symbols : List String
  transition_map : List (String × List (String × String))
  state_map : List (String × State)
deriving DecidableEq

/-- `DeterministicTransitionFunction.__call__` (lines 46-54): row lookup first
(`KeyError` when absent), `TransitionFunctionError` when the symbol has no
entry, `KeyError("State with name ... is not defined")` when the stored name
is dangling. -/
def DTF.call (f : DTF) (st : State) (a : String) : Except PyErr State :=
  match alookup st.name f.transition_map with
  | none => .error .keyError
  | some row =>
    match alookup a row with
    | none => .error .undefinedTransition
    | some tname =>
      match alookup tname f.state_map with
      | none => .error .danglingTarget
      | some t => .ok t

/-- A word is embedded as the list of its characters, each a one-character
string (Python's `for symbol in word` iterates characters and compares them
with the alphabet's entries). -/
def isSpaceSym (s : String) : Bool := s.toList.all Char.isWhitespace && !s.isEmpty

/-- Python `word.strip()` on the character list of a word. -/
def pyStrip (w : List String) : List String :=
  ((w.dropWhile isSpaceSym).reverse.dropWhile isSpaceSym).reverse

/-- `AbstractAutomaton.verify_word` (abstract_automaton.py, 70-86): strips the
word, raises `InvalidSymbolError` on a symbol outside the alphabet, then
`InvalidStateError` when there is no start state. -/
def verify_word (symbols : List String) (start : Option State) (w : List String) :
    Except PyErr Unit :=
  if (pyStrip w).all (fun a => decide (a ∈ symbols)) then
    match start with
    | some _ => .ok ()
    | none => .error .noStartState
  else .error .invalidSymbol

/-- `DFA` (df_automaton.py): states, the ordered alphabet, a deterministic
transition function, the optional start state.  (`accept_states` is declared
by the Python class but never written by `add_state` nor read by
recognition, so it is omitted.) -/
structure DFA where
  symbols : List String
  states : List State
  start_state : Option State
  tf : DTF
deriving DecidableEq

/-- `DFA.__init__` (df_automaton.py 31-40) over `AbstractAutomaton.__init__`. -/
def DFA.init (symbols : List String) : DFA :=
  ⟨symbols, [], none, ⟨symbols, [], []⟩⟩

/-- `AbstractAutomaton.add_state` (abstract_automaton.py 39-54) as specialised
by `DFA.add_state`: build the new state, raise `duplicateStartState` when a
start state already exists (before any mutation), otherwise record the state,
register it with the transition function and bind its outgoing row.  Returns
the automaton state after the call together with the outcome. -/
def DFA.add_state (M : DFA) (name : String) (tgts : List String)
    (is_st is_acc : Bool) : DFA × Except PyErr State :=
  let new_state : State := ⟨name, is_st, is_acc⟩
  if is_st && M.start_state.isSome then (M, .error .duplicateStartState)
  else
    ({ M with
        start_state := if is_st then some new_state else M.start_state,
        states := M.states ++ [new_state],
        tf := { M.tf with
          state_map := aupsert name new_state M.tf.state_map,
          transition_map :=
            aupsert name (rowFold M.tf.symbols tgts) M.tf.transition_map } },
      .ok new_state)

/-- The `for symbol in word: current_state = self.transition_function(...)`
fold of `DFA.get_resulting_state` (df_automaton.py 86-90). -/
def dfaFold (M : DFA) : State → List String → Except PyErr State
  | st, [] => .ok st
  | st, a :: w =>
    match M.tf.call st a with
    | .error e => .error e
    | .ok t => dfaFold M t w

/-- `DFA.get_resulting_state` (df_automaton.py 68-90). -/
def DFA.get_resulting_state (M : DFA) (w : List String) : Except PyErr State :=
  match verify_word M.symbols M.start_state w with
  | .error e => .error e
  | .ok _ =>
    match M.start_state with
    | none => .error .noStartState
    | some s0 => dfaFold M s0 w

/-- `AbstractAutomaton.accepts_word` (abstract_automaton.py 56-68). -/
def DFA.accepts_word (M : DFA) (w : List String) : Except PyErr Bool :=
  (M.get_resulting_state w).map (fun st => st.is_accepting)

/-- `NFA` (nf_automaton.py).  (`null_state` is the state named `"Ø"` added by
the constructor; it is an ordinary member of `states`.) -/
structure NFA where
  symbols : List String
  states : List State
  start_state : Option State
  tf : NTF
deriving DecidableEq

/-- `AbstractAutomaton.add_state` as specialised by `NFA.add_state`
(nf_automaton.py 50-74): identical to the deterministic one except that each
symbol is bound to a set of target names. -/
def NFA.add_state (M : NFA) (name : String) (tgts : List (Finset String))
    (is_st is_acc : Bool) : NFA × Except PyErr State :=
  let new_state : State := ⟨name, is_st, is_acc⟩
  if is_st && M.start_state.isSome then (M, .error .duplicateStartState)
  else
    ({ M with
        start_state := if is_st then some new_state else M.start_state,
        states := M.states ++ [new_state],
        tf := { M.tf with
          state_map := aupsert name new_state M.tf.state_map,
          transition_map :=
            aupsert name (rowFold M.tf.symbols tgts) M.tf.transition_map } },
      .ok new_state)

/-- `NFA.__init__` (nf_automaton.py 38-48): fresh containers, then the null
state `"Ø"` with an empty target set for every symbol. -/
def NFA.init (symbols : List String) : NFA :=
  (NFA.add_state ⟨symbols, [], none, ⟨symbols, [], []⟩⟩ "Ø"
    (symbols.map fun _ => ∅) false false).1

/-- The `for state in states: new_states.update(...)` loop of
`NFA.get_next_state` (nf_automaton.py 119-122), iterating a state set. -/
def unionCalls (f : NTF) : List String → String → Except PyErr (Finset String)
  | [], _ => .ok ∅
  | n :: rest, a =>
    match f.callName n a with
    | .error e => .error e
    | .ok ts =>
      match unionCalls f rest a with
      | .error e => .error e
      | .ok u => .ok ((ts.map State.name).toFinset ∪ u)

/-- `NFA.get_next_state` (nf_automaton.py 100-122): `InvalidSymbolError` when
the symbol is outside the alphabet, else the union of the per-state calls. -/
def NFA.get_next_state (M : NFA) (S : Finset String) (a : String) :
    Except PyErr (Finset String) :=
  if a ∈ M.symbols then unionCalls M.tf (namesList S) a else .error .invalidSymbol

/-- The `for symbol in word` fold of `NFA.get_resulting_state`. -/
def nfaFold (M : NFA) : Finset String → List String → Except PyErr (Finset String)
  | S, [] => .ok S
  | S, a :: w =>
    match M.get_next_state S a with
    | .error e => .error e
    | .ok T => nfaFold M T w

/-- `NFA.get_resulting_state` (nf_automaton.py 76-98). -/
def NFA.get_resulting_state (M : NFA) (w : List String) : Except PyErr (Finset String) :=
  match verify_word M.symbols M.start_state w with
  | .error e => .error e
  | .ok _ =>
    match M.start_state with
    | none => .error .noStartState
    | some s0 => nfaFold M {s0.name} w

/-- `is_accepting` of the canonical state named `n`. -/
def acceptFlag (smap : List (String × State)) (n : String) : Bool :=
  match alookup n smap with
  | some st => st.is_accepting
  | none => false

/-- `any(state.is_accepting for state in S)`: the members of an embedded state
set are the canonical per-name objects, so their flags are read through the
state map. -/
def anyAcc (smap : List (String × State)) (S : Finset String) : Bool :=
  (namesList S).any (acceptFlag smap)

/-- `NFA.accepts_word` (nf_automaton.py 124-125). -/
def NFA.accepts_word (M : NFA) (w : List String) : Except PyErr Bool :=
  (M.get_resulting_state w).map (anyAcc M.tf.state_map)

/-- Pure subset step: the value of `NFA.get_next_state` when it does not
raise — the union of the stored target-name sets of the members. -/
def stepN (M : NFA) (S : Finset String) (a : String) : Finset String :=
  S.biUnion (fun n => M.tf.tgt n a)

/-- Pure subset run from a subset state. -/
def runN (M : NFA) (S : Finset String) (w : List String) : Finset String :=
  w.foldl (stepN M) S

/-- The `[self.get_next_state(state, symbol) for symbol in self.symbols]`
comprehension of `NFA.convert_to_dfa` (nf_automaton.py 150). -/
def imageSetsGo (M : NFA) (S : Finset String) :
    List String → Except PyErr (List (Finset String))
  | [] => .ok []
  | a :: rest =>
    match M.get_next_state S a with
    | .error e => .error e
    | .ok T =>
      match imageSetsGo M S rest with
      | .error e => .error e
      | .ok l => .ok (T :: l)

def imageSets (M : NFA) (S : Finset String) : Except PyErr (List (Finset String)) :=
  imageSetsGo M S M.symbols

/-- The breadth-first exploration loop of `NFA.convert_to_dfa`
(nf_automaton.py 141-155): pop the queue head, skip already-visited subset
states, otherwise record the subset together with its per-symbol images and
enqueue the unvisited images.  Fuel-structural; `none` models a loop that has
not finished within the given number of iterations. -/
def convLoop (M : NFA) :
    Nat → List (Finset String) → List (Finset String) →
    List (Finset String × List (Finset String)) →
    Option (Except PyErr (List (Finset String) × List (Finset String × List (Finset String))))
  | 0, _, _, _ => none
  | _ + 1, [], visited, trs => some (.ok (visited, trs))
  | fuel + 1, S :: rest, visited, trs =>
    if S ∈ visited then convLoop M fuel rest visited trs
    else
      match imageSets M S with
      | .error e => some (.error e)
      | .ok imgs =>
        convLoop M fuel (rest ++ imgs.filter (fun T => T ∉ visited ++ [S]))
          (visited ++ [S]) (trs ++ [(S, imgs)])

/-- The `state_map` dict of `NFA.convert_to_dfa` with `map_states=True` (the
default, the variant under verification): the subset visited at position `i`
is named `f"s{i}"`; subsets are canonical (Python keys them by the
name-sorted member tuple), so a `Finset`-keyed lookup is faithful. -/
def nameOfSet (visited : List (Finset String)) (S : Finset String) : Option String :=
  (idxOf? S visited).map sName

def mapNames (visited : List (Finset String)) :
    List (Finset String) → Option (List String)
  | [] => some []
  | T :: rest =>
    match nameOfSet visited T, mapNames visited rest with
    | some n, some l => some (n :: l)
    | _, _ => none

/-- The `for i, transition in enumerate(transitions): dfa.add_state(...)` loop
of `NFA.convert_to_dfa` (nf_automaton.py 161-165): one DFA state per visited
subset, in visit order, the first marked starting, accepting when the subset
contains an accepting NFA state; a missing `state_map` key is a dict
`KeyError`. -/
def convBuildGo (M : NFA) (visited : List (Finset String)) :
    DFA → Nat → List (Finset String × List (Finset String)) → Except PyErr DFA
  | dfa, _, [] => .ok dfa
  | dfa, i, (S, imgs) :: rest =>
    match nameOfSet visited S, mapNames visited imgs with
    | some nm, some tgts =>
      match DFA.add_state dfa nm tgts (i == 0) (anyAcc M.tf.state_map S) with
      | (_, .error e) => .error e
      | (dfa1, .ok _) => convBuildGo M visited dfa1 (i + 1) rest
    | _, _ => .error .keyError

/-- `NFA.convert_to_dfa` (nf_automaton.py 127-167) with the default
`map_states=True`: explore from `{start}`, then build the DFA over the same
alphabet.  With no start state Python would dereference `None.name`. -/
def NFA.convert_to_dfa (M : NFA) (fuel : Nat) : Option (Except PyErr DFA) :=
  match M.start_state with
  | none => some (.error .attributeError)
  | some s0 =>
    match convLoop M fuel [{s0.name}] [] [] with
    | none => none
    | some (.error e) => some (.error e)
    | some (.ok (visited, trs)) =>
      some (convBuildGo M visited (DFA.init M.symbols) 0 trs)

/-- The memoised epsilon-closure map `ENFA.e_closure`: keys are the states
(canonical per name), values are state sets. -/
abbrev EMemo := List (String × Finset String)

/-- `ENFA` (enf_automaton.py): an NFA together with the cached closure map. -/
structure ENFA where
  symbols : List String
  states : List State
  start_state : Option State
  tf : NTF
  e_closure : Option EMemo
deriving DecidableEq

/-- `ENFA._calculate_e_closure_for_state` (enf_automaton.py 143-152) together
with its `for target in e_targets: closure.update(...)` loop:
`calcClosureList fuel memo l` is the union of the closures of the states in
`l`, threading the memo dict `self.e_closure`.  The memo entry for a state is
written only *after* the recursion over its epsilon targets returns, exactly
as in the source.  The fuel bounds the number of recursive calls;
`.error .recursionLimit` for every fuel models unbounded recursion (Python's
`RecursionError`). -/
def calcClosureList (M : ENFA) : Nat → EMemo → List State → Except PyErr (EMemo × Finset String)
  | _, memo, [] => .ok (memo, ∅)
  | 0, _, _ :: _ => .error .recursionLimit
  | fuel + 1, memo, st :: ts =>
    match
      (match alookup st.name memo with
       | some c => .ok (memo, c)
       | none =>
         match M.tf.call st "e" with
         | .error e => .error e
         | .ok e_targets =>
           match calcClosureList M fuel memo e_targets with
           | .error e => .error e
           | .ok (m1, u) =>
             .ok (aupsert st.name (insert st.name u) m1, insert st.name u) :
       Except PyErr (EMemo × Finset String)) with
    | .error e => .error e
    | .ok (m1, c1) =>
      match calcClosureList M fuel m1 ts with
      | .error e => .error e
      | .ok (m2, c2) => .ok (m2, c1 ∪ c2)

/-- The `for state in self.states` loop of `ENFA._calculate_e_closure`
(enf_automaton.py 138-141). -/
def calcEClosureGo (M : ENFA) (fuel : Nat) : List State → EMemo → Except PyErr EMemo
  | [], memo => .ok memo
  | st :: rest, memo =>
    match calcClosureList M fuel memo [st] with
    | .error e => .error e
    | .ok (m1, _) => calcEClosureGo M fuel rest m1

/-- `ENFA._calculate_e_closure` (enf_automaton.py 138-141): reset the map,
then compute the closure of every state. -/
def calcEClosure (M : ENFA) (fuel : Nat) : Except PyErr EMemo :=
  calcEClosureGo M fuel M.states []

/-- `super().add_state(...)` as executed inside `ENFA.add_state`: the NFA
`add_state` on the ENFA record, leaving the cached closure map untouched. -/
def ENFA.superAdd (M : ENFA) (name : String) (tgts : List (Finset String))
    (is_st is_acc : Bool) : ENFA × Except PyErr State :=
  let new_state : State := ⟨name, is_st, is_acc⟩
  if is_st && M.start_state.isSome then (M, .error .duplicateStartState)
  else
    ({ M with
        start_state := if is_st then some new_state else M.start_state,
        states := M.states ++ [new_state],
        tf := { M.tf with
          state_map := aupsert name new_state M.tf.state_map,
          transition_map :=
            aupsert name (rowFold M.tf.symbols tgts) M.tf.transition_map } },
      .ok new_state)

/-- `ENFA.add_state` (enf_automaton.py 56-88): run the inherited `add_state`,
then eagerly recompute the closure map inside `try: ... except:` — any
exception is swallowed and leaves `e_closure = None`; the state stays added
and is still returned. -/
def ENFA.add_state (M : ENFA) (name : String) (tgts : List (Finset String))
    (is_st is_acc : Bool) (fuel : Nat) : ENFA × Except PyErr State :=
  match ENFA.superAdd M name tgts is_st is_acc with
  | (M1, .error e) => (M1, .error e)
  | (M1, .ok st) =>
    match calcEClosure M1 fuel with
    | .ok memo => ({ M1 with e_closure := some memo }, .ok st)
    | .error _ => ({ M1 with e_closure := none }, .ok st)

/-- `ENFA.__init__` (enf_automaton.py 36-54): reject an alphabet already
containing the reserved `"e"`, else append it and run the NFA constructor
(whose `self.add_state` call dispatches to `ENFA.add_state`, adding the null
state and computing the initial closure map). -/
def ENFA.init (symbols : List String) (fuel : Nat) : Except PyErr ENFA :=
  if "e" ∈ symbols then .error .invalidSymbol
  else
    let symbols2 := symbols ++ ["e"]
    .ok (ENFA.add_state ⟨symbols2, [], none, ⟨symbols2, [], []⟩, none⟩ "Ø"
      (symbols2.map fun _ => ∅) false false fuel).1

/-- Modelled from the spec: `DFA.minimize`'s phases call `self.remove_state(state)`
(df_automaton.py 170 and 240) but no definition of `remove_state` is among the
provided sources.  Spec §4.1: removal "deletes the state's own
outgoing-transition row but does not retroactively scrub other states'
transitions pointing at it — those become dangling and must be detected
lazily at evaluation", and §3/§9 describe removal as dropping the state from
the automaton's state set with stale references becoming detectable lookup
errors.  Accordingly: drop the state, its transition row and its name-map
entry; other rows are untouched; a start state that is removed is cleared. -/
def DFA.remove_state (M : DFA) (st : State) : DFA :=
  { M with
      states := M.states.filter (fun s => s ≠ st),
      start_state := if M.start_state = some st then none else M.start_state,
      tf := { M.tf with
        transition_map := M.tf.transition_map.filter (fun p => p.1 ≠ st.name),
        state_map := M.tf.state_map.filter (fun p => p.1 ≠ st.name) } }

/-- `for symbol in self.symbols: temp.add(self.transition_function(state, symbol))`
for one state (df_automaton.py 161-163). -/
def imageStD (M : DFA) (st : State) : List String → Except PyErr (Finset String)
  | [] => .ok ∅
  | a :: rest =>
    match M.tf.call st a with
    | .error e => .error e
    | .ok t =>
      match imageStD M st rest with
      | .error e => .error e
      | .ok u => .ok (insert t.name u)

/-- The double loop building `temp` from `new_states` (df_automaton.py 160-163). -/
def imageOfSetD (M : DFA) : List String → Except PyErr (Finset String)
  | [] => .ok ∅
  | n :: rest =>
    match alookup n M.tf.state_map with
    | none => .error .keyError
    | some st =>
      match imageStD M st M.symbols with
      | .error e => .error e
      | .ok u =>
        match imageOfSetD M rest with
        | .error e => .error e
        | .ok v => .ok (u ∪ v)

/-- The `while True` reachability loop of `DFA._remove_unreachable_states`
(df_automaton.py 157-167), on name-sets. -/
def reachLoop (M : DFA) : Nat → Finset String → Finset String →
    Option (Except PyErr (Finset String))
  | 0, _, _ => none
  | fuel + 1, reach, news =>
    match imageOfSetD M (namesList news) with
    | .error e => some (.error e)
    | .ok temp =>
      let news2 := temp \ reach
      let reach2 := reach ∪ news2
      if news2 = ∅ then some (.ok reach2) else reachLoop M fuel reach2 news2

/-- `DFA._remove_unreachable_states` (df_automaton.py 154-174): compute the
set reachable from the start state, then remove every other state.  With no
start state Python dereferences `None.name`. -/
def DFA.remove_unreachable (M : DFA) (fuel : Nat) : Option (Except PyErr DFA) :=
  match M.start_state with
  | none => some (.error .attributeError)
  | some s0 =>
    match reachLoop M fuel {s0.name} {s0.name} with
    | none => none
    | some (.error e) => some (.error e)
    | some (.ok reach) =>
      some (.ok ((M.states.filter (fun st => st.name ∉ reach)).foldl
        DFA.remove_state M))

/-- The per-state/per-symbol transition evaluations performed by `DFA.print`
(df_automaton.py 139-144), which `_hopcroft_non_distinguishable` invokes. -/
def allCallsD (M : DFA) : List State → Except PyErr Unit
  | [] => .ok ()
  | st :: rest =>
    match imageStD M st M.symbols with
    | .error e => .error e
    | .ok _ => allCallsD M rest

/-- `DFA.print` (df_automaton.py 92-145) as seen by minimization: it raises
on an empty automaton and evaluates the transition function on every
(state, symbol) pair; the console output itself is irrelevant. -/
def printCheck (M : DFA) : Except PyErr Unit :=
  if M.states = [] then .error .emptyAutomaton else allCallsD M M.states

/-- `x = frozenset(state for state in self.states if self.transition_function(state, symbol) in a)`
(df_automaton.py 189), on name-sets. -/
def preimageGo (M : DFA) (a : String) (blk : Finset String) :
    List State → Except PyErr (Finset String)
  | [] => .ok ∅
  | st :: rest =>
    match M.tf.call st a with
    | .error e => .error e
    | .ok t =>
      match preimageGo M a blk rest with
      | .error e => .error e
      | .ok r => .ok (if t.name ∈ blk then insert st.name r else r)

/-- One `for symbol in self.symbols` body of the Hopcroft-style refinement
(df_automaton.py 188-222): split every block of `p` against the preimage
`x`, mirroring the source's add/remove set bookkeeping; blocks are
name-sets, and the partition/work collections (Python sets of frozensets)
are duplicate-free lists. -/
def refineSym (M : DFA) (blkA : Finset String)
    (pw : List (Finset String) × List (Finset String)) (a : String) :
    Except PyErr (List (Finset String) × List (Finset String)) :=
  match preimageGo M a blkA M.states with
  | .error e => .error e
  | .ok x =>
    let p := pw.1
    let w := pw.2
    let splits := p.filter (fun y => y ∩ x ≠ ∅ ∧ y \ x ≠ ∅)
    let addP := splits.flatMap (fun y => [y ∩ x, y \ x])
    let removeW := splits.filter (fun y => y ∈ w)
    let addW :=
      (splits.filter (fun y => y ∈ w)).flatMap (fun y => [y ∩ x, y \ x]) ++
      (splits.filter (fun y => y ∉ w)).map
        (fun y => if (y ∩ x).card ≤ (y \ x).card then y ∩ x else y \ x)
    .ok (setAddAll (p.filter (fun y => y ∉ splits)) addP,
         setAddAll (w.filter (fun y => y ∉ removeW)) addW)

/-- The `while len(w) > 0` loop of `DFA._hopcroft_non_distinguishable`
(df_automaton.py 186-222): pop a block from the work set and refine against
it for every symbol. -/
def hopLoop (M : DFA) : Nat → List (Finset String) → List (Finset String) →
    Option (Except PyErr (List (Finset String)))
  | 0, _, _ => none
  | _ + 1, p, [] => some (.ok p)
  | fuel + 1, p, blkA :: wrest =>
    match List.foldlM (refineSym M blkA) (p, wrest) M.symbols with
    | .error e => some (.error e)
    | .ok (p2, w2) => hopLoop M fuel p2 w2

/-- `DFA._hopcroft_non_distinguishable` (df_automaton.py 176-224): the
partition and work set are seeded with `{start}` and `states - {start}`
(not with the accepting/non-accepting split of the textbook algorithm);
`self.print()` runs first. -/
def DFA.hopcroft (M : DFA) (s0 : State) (fuel : Nat) :
    Option (Except PyErr (List (Finset String))) :=
  let b1 : Finset String := {s0.name}
  let b2 : Finset String := (M.states.map State.name).toFinset \ {s0.name}
  let p0 := setAddAll [] [b1, b2]
  match printCheck M with
  | .error e => some (.error e)
  | .ok _ => hopLoop M fuel p0 p0

/-- The repair walk of `DFA._merge_states` (df_automaton.py 243-247):
`transition_result = self.transition_function(state, symbol)` re-raises for
dangling targets; `if not transition_result` is always false because a
`State` object is truthy, so no repair is ever written. -/
def repairWalk (M : DFA) : List String → Except PyErr Unit
  | [] => .ok ()
  | a :: rest =>
    match allCallsOne M a M.states with
    | .error e => .error e
    | .ok _ => repairWalk M rest
where
  allCallsOne (M : DFA) (a : String) : List State → Except PyErr Unit
    | [] => .ok ()
    | st :: l =>
      match M.tf.call st a with
      | .error e => .error e
      | .ok _ => allCallsOne M a l

/-- `DFA._merge_states` (df_automaton.py 226-253): name the class `f"r{index}"`,
take a representative's outgoing targets, keep (only) the in-class ones as
`state_name` — dropping out-of-class targets from the list —, remove the
member states, run the (ineffective) repair walk, then add the merged state
with OR-ed flags.  Returns the automaton state after the call with the
outcome. -/
def DFA.mergeStates (M : DFA) (index : Nat) (cls : Finset String) :
    DFA × Except PyErr Unit :=
  let state_name := rName index
  match namesList cls with
  | [] => (M, .error .indexError)
  | repName :: _ =>
    match alookup repName M.tf.state_map with
    | none => (M, .error .keyError)
    | some rep =>
      match List.mapM (M.tf.call rep) M.symbols with
      | .error e => (M, .error e)
      | .ok tts =>
        let fixed := tts.filterMap
          (fun t => if t.name ∈ cls then some state_name else none)
        let members := M.states.filter (fun st => st.name ∈ cls)
        let M1 := members.foldl DFA.remove_state M
        match repairWalk M1 M1.symbols with
        | .error e => (M1, .error e)
        | .ok _ =>
          match DFA.add_state M1 state_name fixed
              (members.any (fun st => st.is_starting))
              (members.any (fun st => st.is_accepting)) with
          | (M2, .ok _) => (M2, .ok ())
          | (M2, .error e) => (M2, .error e)

/-- The `for i, equivalence_class in enumerate(filter(...))` loop of
`DFA.minimize` (df_automaton.py 150-151). -/
def mergeLoop : DFA → Nat → List (Finset String) → DFA × Except PyErr Unit
  | M, _, [] => (M, .ok ())
  | M, i, c :: rest =>
    match DFA.mergeStates M i c with
    | (M2, .ok _) => mergeLoop M2 (i + 1) rest
    | (M2, .error e) => (M2, .error e)

/-- `DFA.minimize` (df_automaton.py 147-152): prune unreachable states,
compute the partition, merge every class of size > 1.  Returns the automaton
state after the call together with the outcome. -/
def DFA.minimize (M : DFA) (fuel : Nat) : Option (DFA × Except PyErr Unit) :=
  match DFA.remove_unreachable M fuel with
  | none => none
  | some (.error e) => some (M, .error e)
  | some (.ok M1) =>
    match M1.start_state with
    | none => some (M1, .error .attributeError)
    | some s1 =>
      match DFA.hopcroft M1 s1 fuel with
      | none => none
      | some (.error e) => some (M1, .error e)
      | some (.ok p) =>
        some (mergeLoop M1 1 (p.filter (fun c => 1 < c.card)))

/-- Well-formedness of a fully built NFA, as guaranteed by a successful
sequence of `add_state` calls with pairwise-distinct names and resolvable
targets: unique state names, the transition function shares the automaton's
alphabet, the state map holds exactly the canonical object of each state,
every state has a transition row, every stored target name resolves, and the
start state (if any) is a state. -/
def NFA.WF (M : NFA) : Prop :=
  (M.states.map State.name).Nodup ∧
  M.tf.symbols = M.symbols ∧
  (∀ p ∈ M.tf.state_map, p.2 ∈ M.states ∧ p.2.name = p.1) ∧
  (∀ st ∈ M.states, alookup st.name M.tf.state_map = some st) ∧
  (∀ st ∈ M.states, (alookup st.name M.tf.transition_map).isSome = true) ∧
  (∀ p ∈ M.tf.transition_map, ∀ q ∈ p.2, ∀ t ∈ q.2,
    (alookup t M.tf.state_map).isSome = true) ∧
  (∀ s ∈ M.start_state.toList, s ∈ M.states)

instance (M : NFA) : Decidable M.WF := by
  unfold NFA.WF
  infer_instance

/-- The stored deterministic entry for `(state-name, symbol)`. -/
def DFA.dentry (M : DFA) (n a : String) : Option String :=
  (alookup n M.tf.transition_map).bind (alookup a)

/-- Well-formedness of a fully built DFA: unique names, shared alphabet,
canonical state map, a transition entry for every state and alphabet symbol
(and only for alphabet symbols), every stored target resolving, and a start
state that is a state. -/
def DFA.WFd (M : DFA) : Prop :=
  (M.states.map State.name).Nodup ∧
  M.tf.symbols = M.symbols ∧
  (∀ p ∈ M.tf.state_map, p.2 ∈ M.states ∧ p.2.name = p.1) ∧
  (∀ st ∈ M.states, alookup st.name M.tf.state_map = some st) ∧
  (∀ st ∈ M.states, ∀ a ∈ M.symbols, (M.dentry st.name a).isSome = true) ∧
  (∀ p ∈ M.tf.transition_map, ∀ q ∈ p.2, q.1 ∈ M.symbols) ∧
  (∀ p ∈ M.tf.transition_map, ∀ q ∈ p.2,
    (alookup q.2 M.tf.state_map).isSome = true) ∧
  (∀ s ∈ M.start_state.toList, s ∈ M.states)

instance (M : DFA) : Decidable M.WFd := by
  unfold DFA.WFd
  infer_instance

/-- Pure deterministic step: the value of `DTF.call` whenever it does not
raise (junk default outside the well-formed domain). -/
def dstepF (M : DFA) (st : State) (a : String) : State :=
  match M.dentry st.name a with
  | none => st
  | some tn => (alookup tn M.tf.state_map).getD st

/-- Pure deterministic run. -/
def runPureD (M : DFA) (st : State) (w : List String) : State :=
  w.foldl (dstepF M) st

/-- "Reachable from `s0` by some sequence of alphabet symbols". -/
def DFA.ReachesF (M : DFA) (s0 st : State) : Prop :=
  ∃ w, (∀ a ∈ w, a ∈ M.symbols) ∧ runPureD M s0 w = st

/-- Step-closure presentation of reachability, used to relate the BFS of
`_remove_unreachable_states` to `DFA.ReachesF`. -/
inductive ReachesI (M : DFA) (s0 : State) : State → Prop
  | base : ReachesI M s0 s0
  | step : ∀ {st a}, ReachesI M s0 st → a ∈ M.symbols → ReachesI M s0 (dstepF M st a)

/-- Every member of the name-set is the name of some state of the NFA. -/
def NFA.goodSet (M : NFA) (S : Finset String) : Prop :=
  ∀ n ∈ S, ∃ st ∈ M.states, st.name = n

/-- The names of the automaton's states, as a set. -/
def statesNames (M : DFA) : Finset String := (M.states.map State.name).toFinset

/-- Name-level deterministic step: resolve the canonical state of the name and
step it (identity outside the well-formed domain). -/
def nameStep (M : DFA) (n a : String) : String :=
  match alookup n M.tf.state_map with
  | none => n
  | some st => (dstepF M st a).name

/-- `n` is the name of a state reachable from `s0`. -/
def NameReach (M : DFA) (s0 : State) (n : String) : Prop :=
  ∃ st ∈ M.states, st.name = n ∧ ReachesI M s0 st

/-! ### Concrete automata for witnesses and counterexamples -/

/-- The spec §8 scenario NFA over `{0, 1}`: start `q1` loops on `0` and moves
to `{q1, q2}` on `1`; `q2` moves to `q3` on both symbols; `q3` is accepting
with no outgoing moves; the constructor's null state is present. -/
def exNFA : NFA :=
  let m0 := NFA.init ["0", "1"]
  let m1 := (NFA.add_state m0 "q1" [{"q1"}, {"q1", "q2"}] true false).1
  let m2 := (NFA.add_state m1 "q2" [{"q3"}, {"q3"}] false false).1
  (NFA.add_state m2 "q3" [∅, ∅] false true).1

/-- The DFA produced by the subset construction on `exNFA`. -/
def exDFA : DFA :=
  match NFA.convert_to_dfa exNFA 20 with
  | some (.ok d) => d
  | _ => DFA.init []

/-- A two-state DFA over `{0}`: start `A` moves to `B`, `B` loops; no state
accepts.  `A` and `B` are language-equivalent (both languages are empty), yet
the `{start}/{rest}` seeding keeps them in distinct blocks, so `minimize`
merges nothing. -/
def exDFA2 : DFA :=
  let m0 := DFA.init ["0"]
  let m1 := (DFA.add_state m0 "A" ["B"] true false).1
  (DFA.add_state m1 "B" ["B"] false false).1

def stA : State := ⟨"A", true, false⟩

def stB : State := ⟨"B", false, false⟩

/-- A three-state DFA over `{0}` with `C` unreachable from the start. -/
def exDFA4 : DFA :=
  let m0 := DFA.init ["0"]
  let m1 := (DFA.add_state m0 "A" ["B"] true false).1
  let m2 := (DFA.add_state m1 "B" ["B"] false false).1
  (DFA.add_state m2 "C" ["A"] false false).1

/-- `exDFA4` after reachability pruning. -/
def exDFA4p : DFA :=
  match DFA.remove_unreachable exDFA4 10 with
  | some (.ok d) => d
  | _ => DFA.init []

def stC : State := ⟨"C", false, false⟩

/-- `ENFA([])`: alphabet `["e"]`, only the null state; closure map computed. -/
def enfaE0 : ENFA :=
  match ENFA.init [] 10 with
  | .ok m => m
  | .error _ => ⟨[], [], none, ⟨[], [], []⟩, none⟩

/-- `enfaE0` after adding `A` (starting) with the epsilon move `A → B`; the
target is a forward reference, so the eager closure recomputation raises
(dangling name) and is swallowed, leaving `e_closure = None`. -/
def enfaA : ENFA :=
  (ENFA.add_state enfaE0 "A" [{"B"}] true false 10).1

/-- The automaton state after `super().add_state("B", [{"A"}])` inside the
`ENFA.add_state` call that closes the epsilon cycle `A → B → A`. -/
def enfaM1 : ENFA :=
  (ENFA.superAdd enfaA "B" [{"A"}] false false).1

/-- The epsilon-cycle ENFA: `A → B` and `B → A` on epsilon. -/
def enfaCycle : ENFA :=
  (ENFA.add_state enfaA "B" [{"A"}] false false 10).1

def stEA : State := ⟨"A", true, false⟩

def stEB : State := ⟨"B", false, false⟩

/-- A non-deterministic transition function with no rows at all. -/
def ntfEmpty : NTF := ⟨["0"], [], []⟩

/-- A non-deterministic transition function with a (target-less) row for
`"q"` and a dangling entry for `("p", "0")`. -/
def ntfRow : NTF :=
  ⟨["0"], [("q", []), ("p", [("0", {"ghost"})])], [("q", ⟨"q", false, false⟩), ("p", ⟨"p", false, false⟩)]⟩

def stQ : State := ⟨"q", false, false⟩

def stP : State := ⟨"p", false, false⟩

/-- The DFA state that `convBuildGo` adds for the subset visited at
position `i`. -/
def dfaStateOf (M : NFA) (V : List (Finset String)) (i : Nat) : State :=
  ⟨sName i, i == 0, anyAcc M.tf.state_map (V.getD i ∅)⟩

/-- The transition row that `convBuildGo` binds for a visited subset `S`. -/
def convRow (M : NFA) (V : List (Finset String)) (S : Finset String) :
    List (String × String) :=
  rowFold M.symbols (M.symbols.map (fun a => sName ((idxOf? (stepN M S a) V).getD 0)))

/-- Closed form of the DFA built by `convBuildGo` after the first `k`
subsets of the visited list `V` have been added. -/
def mkPartial (M : NFA) (V : List (Finset String)) (k : Nat) : DFA :=
  { symbols := M.symbols,
    states := (List.range k).map (fun i => dfaStateOf M V i),
    start_state := if k = 0 then none else some (dfaStateOf M V 0),
    tf := { symbols := M.symbols,
            transition_map :=
              (List.range k).map (fun i => (sName i, convRow M V (V.getD i ∅))),
            state_map :=
              (List.range k).map (fun i => (sName i, dfaStateOf M V i)) } }

/-! ### Set-enumeration lemmas -/

theorem mem_sortedNames {x : String} (m : Multiset String) :
    x ∈ sortedNames m ↔ x ∈ m :=
  Quot.inductionOn m fun l =>
    Iff.trans (List.perm_insertionSort strle l).mem_iff Multiset.mem_coe

theorem mem_namesList {x : String} {S : Finset String} :
    x ∈ namesList S ↔ x ∈ S :=
  Iff.trans (mem_sortedNames S.val) Finset.mem_val

/-! ### Association-list lemmas -/

theorem alookup_mem {β : Type} {k : String} {v : β} {l : List (String × β)}
    (h : alookup k l = some v) : (k, v) ∈ l := by
  induction l with
  | nil => simp [alookup] at h
  | cons p rest ih =>
    by_cases hp : p.1 = k
    · rw [alookup, if_pos hp] at h
      injection h with h2
      have hpv : p = (k, v) := by
        cases p
        simp_all
      rw [← hpv]
      exact List.mem_cons_self p rest
    · rw [alookup, if_neg hp] at h
      exact List.mem_cons_of_mem _ (ih h)

theorem alookup_aupsert_self {β : Type} (k : String) (v : β) :
    ∀ l : List (String × β), alookup k (aupsert k v l) = some v := by
  intro l
  induction l with
  | nil => simp [aupsert, alookup]
  | cons p rest ih =>
    by_cases hp : p.1 = k
    · rw [aupsert, if_pos hp, alookup, if_pos rfl]
    · rw [aupsert, if_neg hp, alookup, if_neg hp, ih]

theorem alookup_aupsert_ne {β : Type} {k2 k : String} (hne : k2 ≠ k) (v : β) :
    ∀ l : List (String × β), alookup k2 (aupsert k v l) = alookup k2 l := by
  intro l
  have h1 : ¬ (k = k2) := fun h => hne h.symm
  induction l with
  | nil =>
    show alookup k2 [(k, v)] = none
    rw [alookup, if_neg h1]
    rfl
  | cons p rest ih =>
    by_cases hp : p.1 = k
    · rw [aupsert, if_pos hp]
      show alookup k2 ((k, v) :: rest) = alookup k2 (p :: rest)
      rw [alookup, alookup, if_neg h1, if_neg (fun h : p.1 = k2 => h1 (by rw [← hp]; exact h))]
    · rw [aupsert, if_neg hp, alookup, alookup]
      by_cases hq : p.1 = k2
      · rw [if_pos hq, if_pos hq]
      · rw [if_neg hq, if_neg hq, ih]

theorem aupsert_fresh {β : Type} {k : String} (v : β) :
    ∀ {l : List (String × β)}, (∀ p ∈ l, p.1 ≠ k) → aupsert k v l = l ++ [(k, v)] := by
  intro l
  induction l with
  | nil => intro _; rfl
  | cons p rest ih =>
    intro h
    rw [aupsert, if_neg (h p (List.mem_cons_self p rest)), List.cons_append,
      ih (fun q hq => h q (List.mem_cons_of_mem p hq))]

theorem alookup_append_left {β : Type} {k : String} {v : β}
    {l1 l2 : List (String × β)} (h : alookup k l1 = some v) :
    alookup k (l1 ++ l2) = some v := by
  induction l1 with
  | nil => simp [alookup] at h
  | cons p rest ih =>
    by_cases hp : p.1 = k
    · rw [alookup, if_pos hp] at h
      rw [List.cons_append, alookup, if_pos hp, h]
    · rw [alookup, if_neg hp] at h
      rw [List.cons_append, alookup, if_neg hp, ih h]

theorem alookup_append_right {β : Type} {k : String}
    {l1 l2 : List (String × β)} (h : alookup k l1 = none) :
    alookup k (l1 ++ l2) = alookup k l2 := by
  induction l1 with
  | nil => rfl
  | cons p rest ih =>
    by_cases hp : p.1 = k
    · rw [alookup, if_pos hp] at h
      exact absurd h (by simp)
    · rw [alookup, if_neg hp] at h
      rw [List.cons_append, alookup, if_neg hp, ih h]

theorem alookup_eq_none {β : Type} {k : String} {l : List (String × β)}
    (h : ∀ p ∈ l, p.1 ≠ k) : alookup k l = none := by
  induction l with
  | nil => rfl
  | cons p rest ih =>
    rw [alookup, if_neg (h p (List.mem_cons_self p rest))]
    exact ih (fun q hq => h q (List.mem_cons_of_mem p hq))

theorem alookup_filter_ne {β : Type} {k n : String} (hne : k ≠ n)
    (l : List (String × β)) :
    alookup k (l.filter (fun p => p.1 ≠ n)) = alookup k l := by
  induction l with
  | nil => rfl
  | cons p rest ih =>
    rw [List.filter_cons]
    by_cases hp : p.1 = n
    · rw [if_neg (by simp [hp]), alookup,
        if_neg (fun h : p.1 = k => hne (by rw [← h]; exact hp)), ih]
    · rw [if_pos (by simp [hp]), alookup, alookup]
      by_cases hq : p.1 = k
      · rw [if_pos hq, if_pos hq]
      · rw [if_neg hq, if_neg hq, ih]

theorem alookup_filter_self {β : Type} (n : String) (l : List (String × β)) :
    alookup n (l.filter (fun p => p.1 ≠ n)) = none := by
  apply alookup_eq_none
  intro p hp
  have := List.of_mem_filter hp
  simpa using this

/-! ### Index lemmas -/

theorem idxOf?_get {α : Type} [DecidableEq α] {x : α} :
    ∀ {l : List α} {i : Nat}, idxOf? x l = some i → l.get? i = some x := by
  intro l
  induction l with
  | nil => intro i h; simp [idxOf?] at h
  | cons y rest ih =>
    intro i h
    by_cases hy : y = x
    · rw [idxOf?, if_pos hy] at h
      injection h with h2
      rw [← h2, hy]
      rfl
    · rw [idxOf?, if_neg hy] at h
      match hi : idxOf? x rest with
      | none => rw [hi] at h; simp at h
      | some j =>
        rw [hi] at h
        injection h with h2
        rw [← h2]
        simpa using ih hi

theorem idxOf?_of_mem {α : Type} [DecidableEq α] {x : α} :
    ∀ {l : List α}, x ∈ l → (idxOf? x l).isSome = true := by
  intro l
  induction l with
  | nil => intro h; simp at h
  | cons y rest ih =>
    intro h
    rw [idxOf?]
    by_cases hy : y = x
    · rw [if_pos hy]; rfl
    · rw [if_neg hy]
      have h1 : x ∈ rest := by
        rcases List.mem_cons.mp h with h2 | h2
        · exact absurd h2.symm hy
        · exact h2
      have h3 := ih h1
      match hi : idxOf? x rest with
      | none => rw [hi] at h3; simp at h3
      | some j => simp

theorem idxOf?_of_get_nodup {α : Type} [DecidableEq α] :
    ∀ {l : List α}, l.Nodup → ∀ {i : Nat} {x : α}, l.get? i = some x →
      idxOf? x l = some i := by
  intro l
  induction l with
  | nil => intro _ i x h; simp at h
  | cons y rest ih =>
    intro hnd i x h
    match i with
    | 0 =>
      rw [List.get?_cons_zero] at h
      injection h with h2
      rw [idxOf?, if_pos h2]
    | i + 1 =>
      rw [List.get?_cons_succ] at h
      have hx : x ∈ rest := List.get?_mem h
      have hy : ¬ y = x := by
        intro he
        rw [he] at hnd
        exact (List.nodup_cons.mp hnd).1 hx
      rw [idxOf?, if_neg hy, ih (List.nodup_cons.mp hnd).2 h]
      rfl

/-! ### Decimal rendering -/

theorem decCharsAux_zero (f : Nat) : decCharsAux f 0 = [] := by
  cases f <;> rfl

theorem decCharsAux_congr (n : Nat) : ∀ f g, n ≤ f → n ≤ g →
    decCharsAux f n = decCharsAux g n := by
  induction n using Nat.strong_induction_on with
  | _ n ih =>
    intro f g hf hg
    match n, f, g with
    | 0, f, g => rw [decCharsAux_zero, decCharsAux_zero]
    | n + 1, 0, _ => omega
    | n + 1, _, 0 => omega
    | n + 1, f + 1, g + 1 =>
      show decCharsAux f ((n + 1) / 10) ++ _ = decCharsAux g ((n + 1) / 10) ++ _
      have hd : (n + 1) / 10 < n + 1 := Nat.div_lt_self (Nat.succ_pos n) (by norm_num)
      rw [ih ((n + 1) / 10) hd f g (by omega) (by omega)]

theorem decCharsAux_ne_nil : ∀ n f, 0 < n → n ≤ f → decCharsAux f n ≠ [] := by
  intro n f hn hf
  match n, f with
  | n + 1, f + 1 => simp [decCharsAux]

theorem decDigitChar_inj : ∀ {d e : Nat}, d < 10 → e < 10 →
    decDigitChar d = decDigitChar e → d = e := by
  intro d e hd he
  interval_cases d <;> interval_cases e <;> decide

theorem decCharsAux_inj : ∀ m n, decCharsAux m m = decCharsAux n n → m = n := by
  intro m
  induction m using Nat.strong_induction_on with
  | _ m ih =>
    intro n h
    match m, n with
    | 0, 0 => rfl
    | 0, n + 1 =>
      exact absurd h.symm (decCharsAux_ne_nil (n + 1) (n + 1) (Nat.succ_pos n) le_rfl)
    | m + 1, 0 =>
      exact absurd h (decCharsAux_ne_nil (m + 1) (m + 1) (Nat.succ_pos m) le_rfl)
    | m + 1, n + 1 =>
      rw [decCharsAux, decCharsAux] at h
      have h2 := congrArg List.reverse h
      simp only [List.reverse_append, List.reverse_cons, List.reverse_nil,
        List.nil_append, List.singleton_append, List.cons.injEq] at h2
      obtain ⟨hdig, hrev⟩ := h2
      have hmods : (m + 1) % 10 = (n + 1) % 10 :=
        decDigitChar_inj (Nat.mod_lt _ (by norm_num)) (Nat.mod_lt _ (by norm_num)) hdig
      have hrest : decCharsAux m ((m + 1) / 10) = decCharsAux n ((n + 1) / 10) := by
        have := congrArg List.reverse hrev
        simpa using this
      have hm10 : (m + 1) / 10 < m + 1 := Nat.div_lt_self (Nat.succ_pos m) (by norm_num)
      have hn10 : (n + 1) / 10 < n + 1 := Nat.div_lt_self (Nat.succ_pos n) (by norm_num)
      rw [decCharsAux_congr ((m + 1) / 10) m ((m + 1) / 10) (by omega) le_rfl,
        decCharsAux_congr ((n + 1) / 10) n ((n + 1) / 10) (by omega) le_rfl] at hrest
      have hq := ih ((m + 1) / 10) hm10 ((n + 1) / 10) hrest
      have em := Nat.div_add_mod (m + 1) 10
      have en := Nat.div_add_mod (n + 1) 10
      omega

theorem decChars_inj : ∀ {m n : Nat}, decChars m = decChars n → m = n := by
  intro m n h
  match m, n with
  | 0, 0 => rfl
  | 0, n + 1 =>
    rw [decChars, if_pos rfl, decChars, if_neg (Nat.succ_ne_zero n)] at h
    rw [show decCharsAux (n + 1) (n + 1)
        = decCharsAux n ((n + 1) / 10) ++ [decDigitChar ((n + 1) % 10)] from rfl] at h
    have h2 := congrArg List.reverse h
    simp only [List.reverse_append, List.reverse_cons, List.reverse_nil,
      List.nil_append, List.singleton_append, List.cons.injEq] at h2
    obtain ⟨hdig, hrev⟩ := h2
    have hnil : decCharsAux n ((n + 1) / 10) = [] := by
      have := congrArg List.reverse hrev
      simpa using this
    have hq0 : (n + 1) / 10 = 0 := by
      by_contra hq
      exact decCharsAux_ne_nil ((n + 1) / 10) n (Nat.pos_of_ne_zero hq)
        (by
          have : (n + 1) / 10 < n + 1 := Nat.div_lt_self (Nat.succ_pos n) (by norm_num)
          omega) hnil
    have hmod : (n + 1) % 10 = 0 := by
      have h0 : decDigitChar 0 = decDigitChar ((n + 1) % 10) := hdig
      exact (decDigitChar_inj (by norm_num) (Nat.mod_lt _ (by norm_num)) h0).symm
    have := Nat.div_add_mod (n + 1) 10
    omega
  | m + 1, 0 =>
    rw [decChars, if_neg (Nat.succ_ne_zero m), decChars, if_pos rfl] at h
    rw [show decCharsAux (m + 1) (m + 1)
        = decCharsAux m ((m + 1) / 10) ++ [decDigitChar ((m + 1) % 10)] from rfl] at h
    have h2 := congrArg List.reverse h
    simp only [List.reverse_append, List.reverse_cons, List.reverse_nil,
      List.nil_append, List.singleton_append, List.cons.injEq] at h2
    obtain ⟨hdig, hrev⟩ := h2
    have hnil : decCharsAux m ((m + 1) / 10) = [] := by
      have := congrArg List.reverse hrev
      simpa using this
    have hq0 : (m + 1) / 10 = 0 := by
      by_contra hq
      exact decCharsAux_ne_nil ((m + 1) / 10) m (Nat.pos_of_ne_zero hq)
        (by
          have : (m + 1) / 10 < m + 1 := Nat.div_lt_self (Nat.succ_pos m) (by norm_num)
          omega) hnil
    have hmod : (m + 1) % 10 = 0 := by
      have h0 : decDigitChar ((m + 1) % 10) = decDigitChar 0 := hdig
      exact decDigitChar_inj (Nat.mod_lt _ (by norm_num)) (by norm_num) h0
    have := Nat.div_add_mod (m + 1) 10
    omega
  | m + 1, n + 1 =>
    rw [decChars, if_neg (Nat.succ_ne_zero m), decChars, if_neg (Nat.succ_ne_zero n)] at h
    exact decCharsAux_inj (m + 1) (n + 1) h

theorem sName_inj : ∀ {i j : Nat}, sName i = sName j → i = j := by
  intro i j h
  rw [sName, sName] at h
  have h2 : 's' :: decChars i = 's' :: decChars j := by
    injection h
  exact decChars_inj (List.cons.injEq .. |>.mp h2).2

/-! ### Word stripping -/

theorem mem_of_mem_dropWhile {α : Type} {p : α → Bool} {x : α} :
    ∀ {l : List α}, x ∈ l.dropWhile p → x ∈ l := by
  intro l
  induction l with
  | nil => intro h; simp at h
  | cons y rest ih =>
    intro h
    rw [List.dropWhile_cons] at h
    by_cases hp : p y = true
    · rw [if_pos hp] at h
      exact List.mem_cons_of_mem _ (ih h)
    · rw [if_neg hp] at h
      exact h

theorem mem_of_mem_pyStrip {x : String} {w : List String} (h : x ∈ pyStrip w) :
    x ∈ w := by
  rw [pyStrip] at h
  rw [List.mem_reverse] at h
  have h2 := mem_of_mem_dropWhile h
  rw [List.mem_reverse] at h2
  exact mem_of_mem_dropWhile h2

/-! ### Helper lemmas for the construction claims -/

theorem enfa_superAdd_ok {M M1 : ENFA} {nm : String} {tgts : List (Finset String)}
    {b1 b2 : Bool} {st : State}
    (h : ENFA.superAdd M nm tgts b1 b2 = (M1, .ok st)) :
    st = ⟨nm, b1, b2⟩ ∧ M1.states = M.states ++ [st] ∧ M1.symbols = M.symbols := by
  rw [ENFA.superAdd] at h
  by_cases hc : (b1 && M.start_state.isSome) = true
  · rw [if_pos hc] at h
    injection h with h1 h2
    cases h2
  · rw [if_neg hc] at h
    injection h with h1 h2
    injection h2 with h3
    constructor
    · exact h3.symm
    · constructor
      · rw [← h1, ← h3]
      · rw [← h1]

theorem enfa_add_state_symbols (M : ENFA) (nm : String) (tgts : List (Finset String))
    (b1 b2 : Bool) (fuel : Nat) :
    ((ENFA.add_state M nm tgts b1 b2 fuel).1).symbols = M.symbols := by
  rw [ENFA.add_state]
  split
  · next M1 e heq =>
      have hM : M1 = M := by
        rw [ENFA.superAdd] at heq
        by_cases hc : (b1 && M.start_state.isSome) = true
        · rw [if_pos hc] at heq
          injection heq with h1 _
          exact h1.symm
        · rw [if_neg hc] at heq
          injection heq with _ h2
          cases h2
      rw [hM]
  · next M1 st heq =>
      have hsym := (enfa_superAdd_ok heq).2.2
      split
      · exact hsym
      · exact hsym

/-- C5: on every automaton variant that already has a start state, adding a
state with `is_starting = true` raises the duplicate-start-state error
(spec: *DuplicateStartState*, Python `InvalidStateError`) before any
mutation, so the automaton — its start state included — is unchanged. -/
theorem add_state_duplicate_start (D : DFA) (N : NFA) (E : ENFA)
    (sd sn se : State)
    (hd : D.start_state = some sd) (hn : N.start_state = some sn)
    (he : E.start_state = some se)
    (nm1 nm2 nm3 : String) (t1 : List String) (t2 t3 : List (Finset String))
    (a1 a2 a3 : Bool) (fuel : Nat) :
    DFA.add_state D nm1 t1 true a1 = (D, .error .duplicateStartState) ∧
    NFA.add_state N nm2 t2 true a2 = (N, .error .duplicateStartState) ∧
    ENFA.add_state E nm3 t3 true a3 fuel = (E, .error .duplicateStartState) := by
  refine ⟨?_, ?_, ?_⟩
  · rw [DFA.add_state, if_pos (by rw [hd]; rfl)]
  · rw [NFA.add_state, if_pos (by rw [hn]; rfl)]
  · rw [ENFA.add_state, ENFA.superAdd, if_pos (by rw [he]; rfl)]

theorem add_state_duplicate_start_witness :
    DFA.add_state exDFA2 "X" ["B"] true false = (exDFA2, .error .duplicateStartState) ∧
    NFA.add_state exNFA "X" [∅, ∅] true false = (exNFA, .error .duplicateStartState) ∧
    ENFA.add_state enfaCycle "X" [∅] true false 10 =
      (enfaCycle, .error .duplicateStartState) :=
  add_state_duplicate_start exDFA2 exNFA enfaCycle stA ⟨"q1", true, false⟩ stEA
    (by decide) (by decide) (by decide) "X" "X" "X" ["B"] [∅, ∅] [∅] false false false 10

/-- C6 counterexample: two `State` objects with the same name and the same
role flags are *not* equal under Python's `==` (`state.py` defines no
`__eq__`/`__hash__`, so comparison is object identity), and their default
hashes differ; the claim that name + flags determine equality fails. -/
theorem state_value_equality_fails :
    pyStateEq ⟨0, "q", false, false⟩ ⟨1, "q", false, false⟩ = false ∧
    pyStateHash ⟨0, "q", false, false⟩ ≠ pyStateHash ⟨1, "q", false, false⟩ := by
  exact ⟨rfl, by decide⟩

/-- C6 (amended): `State` values are compared and hashed by object identity —
two `State` objects are equal exactly when they are the same allocation, and
their hashes agree exactly then, irrespective of name and role flags (so
states with equal names but different flags are distinct, and so are two
separately allocated states with identical name and flags). -/
theorem state_identity_equality (a b : PyStateObj) :
    (pyStateEq a b = true ↔ a.oid = b.oid) ∧
    (pyStateHash a = pyStateHash b ↔ a.oid = b.oid) := by
  constructor
  · simp [pyStateEq]
  · exact Iff.rfl

/-- C7 counterexample: evaluating the non-deterministic transition function at
a state that has no transition row raises a `KeyError`
(`self.transition_map[state.name]`) even though no entry is stored for the
(state, symbol) pair — the claim that a missing entry always yields the
empty set without an error fails for unregistered states. -/
theorem ntf_call_unregistered_raises :
    NTF.call ntfEmpty stQ "0" = .error .keyError := by
  decide

/-- C7 (amended): for every state that has a transition row (as every state
registered through `add_state` does), a missing (state, symbol) entry makes
the non-deterministic transition function return the empty set and raise
nothing; and a *DanglingTarget* failure occurs only when a stored target
name does not resolve through the state map. -/
theorem ntf_call_missing_entry (f : NTF) (st : State) (a : String) :
    (∀ row, alookup st.name f.transition_map = some row → alookup a row = none →
      f.call st a = .ok []) ∧
    (f.call st a = .error .danglingTarget →
      ∃ row names, alookup st.name f.transition_map = some row ∧
        alookup a row = some names ∧ ∃ n ∈ names, alookup n f.state_map = none) := by
  constructor
  · intro row hrow hent
    simp only [NTF.call, hrow, hent]
  · intro h
    match hrow : alookup st.name f.transition_map with
    | none =>
      simp only [NTF.call, hrow] at h
      exact absurd h (by decide)
    | some row =>
      match hent : alookup a row with
      | none =>
        simp only [NTF.call, hrow, hent] at h
        exact Except.noConfusion h
      | some names =>
        by_cases hall : ((namesList names).all (fun n => (alookup n f.state_map).isSome)) = true
        · simp only [NTF.call, hrow, hent, if_pos hall] at h
          exact Except.noConfusion h
        · refine ⟨row, names, rfl, hent, ?_⟩
          rw [List.all_eq_true] at hall
          push_neg at hall
          obtain ⟨n, hn, hns⟩ := hall
          refine ⟨n, ?_, ?_⟩
          · exact mem_namesList.mp hn
          · match hlk : alookup n f.state_map with
            | none => rfl
            | some v => rw [hlk] at hns; simp at hns

theorem ntf_call_missing_entry_witness :
    NTF.call ntfRow stQ "0" = .ok [] :=
  (ntf_call_missing_entry ntfRow stQ "0").1 [] rfl rfl

/-- C8: constructing an ENFA whose caller-supplied alphabet already contains
the reserved epsilon symbol `"e"` fails with `InvalidSymbolError`; otherwise
the constructed automaton's alphabet is exactly the caller's alphabet with
the single reserved symbol appended last. -/
theorem enfa_init_appends_epsilon (symbols : List String) (fuel : Nat) :
    ("e" ∈ symbols → ENFA.init symbols fuel = .error .invalidSymbol) ∧
    ("e" ∉ symbols → ∀ M, ENFA.init symbols fuel = .ok M →
      M.symbols = symbols ++ ["e"]) := by
  constructor
  · intro h
    rw [ENFA.init, if_pos h]
  · intro h M hM
    rw [ENFA.init, if_neg h] at hM
    injection hM with h2
    rw [← h2]
    exact enfa_add_state_symbols _ "Ø" _ false false fuel

theorem enfa_init_appends_epsilon_witness :
    ENFA.init ["e"] 10 = .error .invalidSymbol ∧ enfaE0.symbols = [] ++ ["e"] :=
  ⟨(enfa_init_appends_epsilon ["e"] 10).1 (by simp),
   (enfa_init_appends_epsilon [] 10).2 (by simp) enfaE0 rfl⟩

/-- C9: when the eager epsilon-closure recomputation inside `ENFA.add_state`
raises any exception, the bare `except:` swallows it — `add_state` still
returns the new state, the state remains added to the automaton, and the
cached `e_closure` map is reset to `None`. -/
theorem enfa_add_swallows (M : ENFA) (nm : String) (tgts : List (Finset String))
    (b1 b2 : Bool) (fuel : Nat) (M1 : ENFA) (st : State) (e : PyErr)
    (h1 : ENFA.superAdd M nm tgts b1 b2 = (M1, .ok st))
    (h2 : calcEClosure M1 fuel = .error e) :
    ENFA.add_state M nm tgts b1 b2 fuel = ({ M1 with e_closure := none }, .ok st) ∧
    st ∈ M1.states ∧ st = ⟨nm, b1, b2⟩ := by
  obtain ⟨hst, hstates, _⟩ := enfa_superAdd_ok h1
  refine ⟨?_, ?_, hst⟩
  · simp only [ENFA.add_state, h1, h2]
  · rw [hstates]
    exact List.mem_append_right _ (List.mem_singleton.mpr rfl)

theorem enfa_add_swallows_witness :
    ENFA.add_state enfaA "B" [{"A"}] false false 10 =
      ({ enfaM1 with e_closure := none }, .ok stEB) ∧
    stEB ∈ enfaM1.states ∧ stEB = ⟨"B", false, false⟩ :=
  enfa_add_swallows enfaA "B" [{"A"}] false false 10 enfaM1 stEB .recursionLimit
    rfl (by decide)

theorem cycle_closure_aux : ∀ fuel (memo : EMemo), alookup "A" memo = none →
    alookup "B" memo = none →
    calcClosureList enfaCycle fuel memo [stEA] = .error .recursionLimit ∧
    calcClosureList enfaCycle fuel memo [stEB] = .error .recursionLimit := by
  intro fuel
  induction fuel with
  | zero => intro memo hA hB; exact ⟨rfl, rfl⟩
  | succ f ih =>
    intro memo hA hB
    have hcallA : NTF.call enfaCycle.tf ⟨"A", true, false⟩ "e" = .ok [stEB] := by decide
    have hcallB : NTF.call enfaCycle.tf ⟨"B", false, false⟩ "e" = .ok [stEA] := by decide
    constructor
    · simp only [calcClosureList, stEA, hA, hcallA, (ih memo hA hB).2]
    · simp only [calcClosureList, stEB, hB, hcallB, (ih memo hA hB).1]

/-- C3 (code bug): on the epsilon cycle `A → B`, `B → A`, the closure
computation of `_calculate_e_closure` never terminates — the memo entry for a
state is written only after the recursion over its epsilon targets returns,
so the mutual recursion `closure(A) → closure(B) → closure(A) → …` exceeds
any recursion depth (Python `RecursionError`), for every fuel bound; the
claimed result `closure(A) = closure(B) = {A, B}` is never produced. -/
theorem enfa_closure_cycle_diverges (fuel : Nat) :
    calcEClosure enfaCycle fuel = .error .recursionLimit := by
  have hstates : enfaCycle.states = [⟨"Ø", false, false⟩, stEA, stEB] := by decide
  rw [calcEClosure, hstates]
  cases fuel with
  | zero => rfl
  | succ f =>
    have hcall : NTF.call enfaCycle.tf ⟨"Ø", false, false⟩ "e" = .ok [] := by decide
    have hO : calcClosureList enfaCycle (f + 1) [] [⟨"Ø", false, false⟩] =
        .ok ([("Ø", {"Ø"})], {"Ø"}) := by
      simp only [calcClosureList, hcall, alookup]
      decide
    simp only [calcEClosureGo, hO, (cycle_closure_aux (f + 1) [("Ø", {"Ø"})] rfl rfl).1]

theorem exDFA2_run_cases : ∀ (n : Nat) (st : State), st = stA ∨ st = stB →
    runPureD exDFA2 st (List.replicate n "0") = stA ∨
    runPureD exDFA2 st (List.replicate n "0") = stB := by
  intro n
  induction n with
  | zero => intro st h; simpa [runPureD] using h
  | succ k ih =>
    intro st h
    have hstep : dstepF exDFA2 st "0" = stA ∨ dstepF exDFA2 st "0" = stB := by
      rcases h with h | h <;> subst h
      · right; decide
      · right; decide
    rw [List.replicate_succ, runPureD, List.foldl_cons]
    exact ih _ hstep

/-- C2 (code bug): minimizing the two-state DFA `A → B`, `B → B` over `{0}`
with no accepting state returns the automaton unchanged, although its two
distinct states are language-equivalent (both recognize the empty language):
the Hopcroft-style refinement is seeded with `{start}/{rest}` instead of the
accepting/non-accepting split, so equivalent states are never merged — the
minimized automaton does admit a further merge, contradicting the claim. -/
theorem dfa_minimize_keeps_equivalent_states :
    DFA.minimize exDFA2 50 = some (exDFA2, .ok ()) ∧
    stA ∈ exDFA2.states ∧ stB ∈ exDFA2.states ∧ stA ≠ stB ∧
    (∀ n : Nat,
      (runPureD exDFA2 stA (List.replicate n "0")).is_accepting = false ∧
      (runPureD exDFA2 stB (List.replicate n "0")).is_accepting = false) := by
  refine ⟨by decide, by decide, by decide, by decide, ?_⟩
  intro n
  constructor
  · rcases exDFA2_run_cases n stA (Or.inl rfl) with h | h <;> rw [h] <;> decide
  · rcases exDFA2_run_cases n stB (Or.inr rfl) with h | h <;> rw [h] <;> decide

/-! ### Deterministic well-formedness lemmas -/

theorem states_name_inj {M : DFA} (hwf : M.WFd) {s1 s2 : State}
    (h1 : s1 ∈ M.states) (h2 : s2 ∈ M.states) (h : s1.name = s2.name) :
    s1 = s2 :=
  List.inj_on_of_nodup_map hwf.1 h1 h2 h

theorem dtf_call_ok {M : DFA} (hwf : M.WFd) {st : State} (hst : st ∈ M.states)
    {a : String} (ha : a ∈ M.symbols) :
    M.tf.call st a = .ok (dstepF M st a) ∧ dstepF M st a ∈ M.states := by
  obtain ⟨hnd, hsym, hsound, hcomp, hdent, hkeys, hres, hstart⟩ := hwf
  have hd := hdent st hst a ha
  match hrow : alookup st.name M.tf.transition_map with
  | none => rw [DFA.dentry, hrow] at hd; simp at hd
  | some row =>
    match hent : alookup a row with
    | none =>
      rw [DFA.dentry, hrow] at hd
      simp only [Option.some_bind] at hd
      rw [hent] at hd
      simp at hd
    | some tn =>
      have hres2 := hres (st.name, row) (alookup_mem hrow) (a, tn) (alookup_mem hent)
      match hlk : alookup tn M.tf.state_map with
      | none => rw [hlk] at hres2; simp at hres2
      | some t =>
        have hsound2 := hsound (tn, t) (alookup_mem hlk)
        have hstep : dstepF M st a = t := by
          simp only [dstepF, DFA.dentry, hrow, Option.some_bind, hent, hlk, Option.getD]
        constructor
        · simp only [DTF.call, hrow, hent, hlk, hstep]
        · rw [hstep]
          exact hsound2.1

theorem resolve_statesNames {M : DFA} (hwf : M.WFd) {n : String}
    (hn : n ∈ statesNames M) :
    ∃ st, alookup n M.tf.state_map = some st ∧ st ∈ M.states ∧ st.name = n := by
  rw [statesNames, List.mem_toFinset, List.mem_map] at hn
  obtain ⟨st, hst, hname⟩ := hn
  refine ⟨st, ?_, hst, hname⟩
  rw [← hname]
  exact hwf.2.2.2.1 st hst

theorem nameStep_spec {M : DFA} (hwf : M.WFd) {n : String}
    (hn : n ∈ statesNames M) {a : String} (ha : a ∈ M.symbols) :
    nameStep M n a ∈ statesNames M ∧
    ∀ st, alookup n M.tf.state_map = some st → nameStep M n a = (dstepF M st a).name := by
  obtain ⟨st, hlk, hst, hname⟩ := resolve_statesNames hwf hn
  have hmem := (dtf_call_ok hwf hst ha).2
  constructor
  · simp only [nameStep, hlk]
    rw [statesNames, List.mem_toFinset, List.mem_map]
    exact ⟨dstepF M st a, hmem, rfl⟩
  · intro st2 hlk2
    rw [hlk] at hlk2
    injection hlk2 with h2
    simp only [nameStep, hlk, h2]

theorem imageStD_ok {M : DFA} (hwf : M.WFd) {st : State} (hst : st ∈ M.states) :
    ∀ {syms : List String}, (∀ a ∈ syms, a ∈ M.symbols) →
    imageStD M st syms = .ok ((syms.map (fun a => (dstepF M st a).name)).toFinset) := by
  intro syms
  induction syms with
  | nil => intro _; rfl
  | cons a rest ih =>
    intro h
    have hcall := (dtf_call_ok hwf hst (h a (List.mem_cons_self a rest))).1
    rw [imageStD, hcall, ih (fun b hb => h b (List.mem_cons_of_mem a hb))]
    simp

theorem imageOfSetD_ok {M : DFA} (hwf : M.WFd) :
    ∀ (ns : List String), (∀ n ∈ ns, n ∈ statesNames M) →
    ∃ T, imageOfSetD M ns = .ok T ∧
      (∀ x, x ∈ T ↔ ∃ n ∈ ns, ∃ a ∈ M.symbols, nameStep M n a = x) := by
  intro ns
  induction ns with
  | nil =>
    intro _
    refine ⟨∅, rfl, ?_⟩
    simp
  | cons n rest ih =>
    intro h
    obtain ⟨st, hlk, hst, hname⟩ := resolve_statesNames hwf (h n (List.mem_cons_self n rest))
    obtain ⟨T, hT, hTmem⟩ := ih (fun m hm => h m (List.mem_cons_of_mem n hm))
    refine ⟨(M.symbols.map (fun a => (dstepF M st a).name)).toFinset ∪ T, ?_, ?_⟩
    · simp only [imageOfSetD, hlk, imageStD_ok hwf hst (fun a ha => ha), hT]
    · intro x
      rw [Finset.mem_union, List.mem_toFinset, List.mem_map, hTmem x]
      constructor
      · rintro (⟨a, ha, hx⟩ | ⟨m, hm, a, ha, hx⟩)
        · refine ⟨n, List.mem_cons_self n rest, a, ha, ?_⟩
          simp only [nameStep, hlk]
          exact hx
        · exact ⟨m, List.mem_cons_of_mem n hm, a, ha, hx⟩
      · rintro ⟨m, hm, a, ha, hx⟩
        rcases List.mem_cons.mp hm with hm1 | hm1
        · left
          refine ⟨a, ha, ?_⟩
          rw [hm1] at hx
          rw [← hx]
          simp only [nameStep, hlk]
        · right
          exact ⟨m, hm1, a, ha, hx⟩

theorem reachLoop_spec {M : DFA} (hwf : M.WFd) {s0 : State} :
    ∀ (fuel : Nat) (reach news R : Finset String),
    reachLoop M fuel reach news = some (.ok R) →
    news ⊆ reach →
    reach ⊆ statesNames M →
    (∀ n ∈ reach, NameReach M s0 n) →
    s0.name ∈ reach →
    (∀ n ∈ reach, n ∉ news → ∀ a ∈ M.symbols, nameStep M n a ∈ reach) →
    reach ⊆ R ∧ R ⊆ statesNames M ∧ (∀ n ∈ R, NameReach M s0 n) ∧
      s0.name ∈ R ∧ (∀ n ∈ R, ∀ a ∈ M.symbols, nameStep M n a ∈ R) := by
  intro fuel
  induction fuel with
  | zero =>
    intro reach news R h _ _ _ _ _
    exact Option.noConfusion h
  | succ f ih =>
    intro reach news R hrun hsub hstN hreach hs0 hfront
    have hnewsN : ∀ n ∈ namesList news, n ∈ statesNames M := fun n hn =>
      hstN (hsub (mem_namesList.mp hn))
    obtain ⟨T, hT, hTmem⟩ := imageOfSetD_ok hwf (namesList news) hnewsN
    simp only [reachLoop, hT] at hrun
    have himg : ∀ n ∈ news, ∀ a ∈ M.symbols, nameStep M n a ∈ T := by
      intro n hn a ha
      rw [hTmem]
      exact ⟨n, mem_namesList.mpr hn, a, ha, rfl⟩
    have hTN : ∀ x ∈ T, x ∈ statesNames M := by
      intro x hx
      rw [hTmem] at hx
      obtain ⟨n, hn, a, ha, hx2⟩ := hx
      rw [← hx2]
      exact (nameStep_spec hwf (hnewsN n hn) ha).1
    have hTreach : ∀ x ∈ T, NameReach M s0 x := by
      intro x hx
      rw [hTmem] at hx
      obtain ⟨n, hn, a, ha, hx2⟩ := hx
      have hn2 : n ∈ news := mem_namesList.mp hn
      obtain ⟨st, hst, hname, hRI⟩ := hreach n (hsub hn2)
      have hlk : alookup n M.tf.state_map = some st := by
        rw [← hname]
        exact hwf.2.2.2.1 st hst
      have hstep := (nameStep_spec hwf (hstN (hsub hn2)) ha).2 st hlk
      rw [← hx2, hstep]
      exact ⟨dstepF M st a, (dtf_call_ok hwf hst ha).2, rfl, ReachesI.step hRI ha⟩
    by_cases hempty : T \ reach = ∅
    · rw [if_pos hempty] at hrun
      injection hrun with h1
      injection h1 with h2
      have hRe : R = reach := by
        rw [← h2, hempty]
        simp
      subst hRe
      refine ⟨Finset.Subset.refl R, hstN, hreach, hs0, ?_⟩
      intro n hn a ha
      by_cases hnn : n ∈ news
      · have hmem := himg n hnn a ha
        have hTsub : T ⊆ R := by
          intro x hx
          by_contra hxr
          have h3 : x ∈ T \ R := Finset.mem_sdiff.mpr ⟨hx, hxr⟩
          rw [hempty] at h3
          exact absurd h3 (Finset.not_mem_empty x)
        exact hTsub hmem
      · exact hfront n hn hnn a ha
    · rw [if_neg hempty] at hrun
      have h1 : (T \ reach) ⊆ reach ∪ (T \ reach) := Finset.subset_union_right
      have h2 : reach ∪ (T \ reach) ⊆ statesNames M :=
        Finset.union_subset hstN (fun x hx => hTN x (Finset.mem_sdiff.mp hx).1)
      have h3 : ∀ n ∈ reach ∪ (T \ reach), NameReach M s0 n := by
        intro n hn
        rcases Finset.mem_union.mp hn with h | h
        · exact hreach n h
        · exact hTreach n (Finset.mem_sdiff.mp h).1
      have h4 : s0.name ∈ reach ∪ (T \ reach) := Finset.mem_union_left _ hs0
      have h5 : ∀ n ∈ reach ∪ (T \ reach), n ∉ T \ reach → ∀ a ∈ M.symbols,
          nameStep M n a ∈ reach ∪ (T \ reach) := by
        intro n hn hnn a ha
        rcases Finset.mem_union.mp hn with h | h
        · by_cases hm : n ∈ news
          · have hx := himg n hm a ha
            by_cases hxr : nameStep M n a ∈ reach
            · exact Finset.mem_union_left _ hxr
            · exact Finset.mem_union_right _ (Finset.mem_sdiff.mpr ⟨hx, hxr⟩)
          · exact Finset.mem_union_left _ (hfront n h hm a ha)
        · exact absurd h hnn
      obtain ⟨ha1, ha2, ha3, ha4, ha5⟩ :=
        ih (reach ∪ (T \ reach)) (T \ reach) R hrun h1 h2 h3 h4 h5
      exact ⟨fun x hx => ha1 (Finset.mem_union_left _ hx), ha2, ha3, ha4, ha5⟩

theorem reachesI_mem {M : DFA} (hwf : M.WFd) {s0 st : State} (hs0 : s0 ∈ M.states)
    (h : ReachesI M s0 st) : st ∈ M.states := by
  induction h with
  | base => exact hs0
  | step h2 ha ih => exact (dtf_call_ok hwf ih ha).2

theorem reachesI_iff_reachesF {M : DFA} {s0 st : State} :
    ReachesI M s0 st ↔ M.ReachesF s0 st := by
  constructor
  · intro h
    induction h with
    | base => exact ⟨[], by simp, rfl⟩
    | @step st1 b h2 hb ih =>
      obtain ⟨w, hw, hrun⟩ := ih
      refine ⟨w ++ [b], ?_, ?_⟩
      · intro x hx
        rcases List.mem_append.mp hx with h3 | h3
        · exact hw x h3
        · rw [List.mem_singleton.mp h3]
          exact hb
      · rw [runPureD, List.foldl_append]
        rw [runPureD] at hrun
        rw [hrun]
        rfl
  · rintro ⟨w, hw, hrun⟩
    rw [← hrun]
    have hgen : ∀ (w2 : List String), (∀ a ∈ w2, a ∈ M.symbols) → ∀ st1,
        ReachesI M s0 st1 → ReachesI M s0 (List.foldl (dstepF M) st1 w2) := by
      intro w2
      induction w2 with
      | nil => intro _ st1 hr; simpa using hr
      | cons a rest ih2 =>
        intro hw2 st1 hr
        rw [List.foldl_cons]
        exact ih2 (fun x hx => hw2 x (List.mem_cons_of_mem a hx)) _
          (ReachesI.step hr (hw2 a (List.mem_cons_self a rest)))
    exact hgen w hw s0 ReachesI.base

theorem foldRemove_states (l : List State) : ∀ (M0 : DFA),
    (l.foldl DFA.remove_state M0).states =
      M0.states.filter (fun s => decide (s ∉ l)) := by
  induction l with
  | nil =>
    intro M0
    rw [List.foldl_nil]
    rw [List.filter_eq_self.mpr]
    intro a _
    simp
  | cons st rest ih =>
    intro M0
    rw [List.foldl_cons, ih]
    show (M0.states.filter (fun s => decide (s ≠ st))).filter
        (fun s => decide (s ∉ rest)) = _
    rw [List.filter_filter]
    apply List.filter_congr
    intro s _
    by_cases h1 : s = st <;> by_cases h2 : s ∈ rest <;> simp [h1, h2]

theorem foldRemove_maps (nm : String) : ∀ (l : List State) (M0 : DFA),
    (∀ st ∈ l, nm ≠ st.name) →
    alookup nm ((l.foldl DFA.remove_state M0).tf.transition_map) =
      alookup nm M0.tf.transition_map ∧
    alookup nm ((l.foldl DFA.remove_state M0).tf.state_map) =
      alookup nm M0.tf.state_map := by
  intro l
  induction l with
  | nil => intro M0 _; exact ⟨rfl, rfl⟩
  | cons st rest ih =>
    intro M0 hne
    rw [List.foldl_cons]
    have h1 := ih (DFA.remove_state M0 st) (fun s hs => hne s (List.mem_cons_of_mem st hs))
    have hnm := hne st (List.mem_cons_self st rest)
    constructor
    · rw [h1.1]
      exact alookup_filter_ne hnm _
    · rw [h1.2]
      exact alookup_filter_ne hnm _

/-- C4: reachability pruning removes exactly the states unreachable from the
start state by any sequence of alphabet symbols; the start state itself is
never removed, and every surviving (reachable) state keeps its transition
row and its state-map entry unchanged. -/
theorem dfa_remove_unreachable_exact (M : DFA) (hwf : M.WFd) (s0 : State)
    (hstart : M.start_state = some s0) (fuel : Nat) (M2 : DFA)
    (hrun : DFA.remove_unreachable M fuel = some (.ok M2)) :
    (∀ st, st ∈ M2.states ↔ st ∈ M.states ∧ M.ReachesF s0 st) ∧
    s0 ∈ M2.states ∧
    (∀ st ∈ M2.states,
      alookup st.name M2.tf.transition_map = alookup st.name M.tf.transition_map ∧
      alookup st.name M2.tf.state_map = alookup st.name M.tf.state_map) := by
  have hs0 : s0 ∈ M.states := hwf.2.2.2.2.2.2.2 s0 (by rw [hstart]; simp)
  simp only [DFA.remove_unreachable, hstart] at hrun
  match hloop : reachLoop M fuel {s0.name} {s0.name} with
  | none =>
    rw [hloop] at hrun
    exact absurd hrun (by simp)
  | some (.error e) =>
    rw [hloop] at hrun
    exact absurd hrun (by simp)
  | some (.ok R) =>
    rw [hloop] at hrun
    injection hrun with h1
    injection h1 with h2
    have hsN : s0.name ∈ statesNames M := by
      rw [statesNames, List.mem_toFinset, List.mem_map]
      exact ⟨s0, hs0, rfl⟩
    obtain ⟨hsubR, hRN, hRreach, hs0R, hclosed⟩ :=
      reachLoop_spec hwf fuel {s0.name} {s0.name} R hloop
        (Finset.Subset.refl _)
        (Finset.singleton_subset_iff.mpr hsN)
        (fun n hn => by
          rw [Finset.mem_singleton] at hn
          exact ⟨s0, hs0, hn.symm, ReachesI.base⟩)
        (Finset.mem_singleton_self _)
        (fun n hn hnn => absurd hn hnn)
    have hcompl : ∀ st, ReachesI M s0 st → st.name ∈ R := by
      intro st h
      induction h with
      | base => exact hs0R
      | @step st1 a h1 ha ih =>
        have hst1 : st1 ∈ M.states := reachesI_mem hwf hs0 h1
        have hlk : alookup st1.name M.tf.state_map = some st1 :=
          hwf.2.2.2.1 st1 hst1
        have hcl := hclosed st1.name ih a ha
        rwa [(nameStep_spec hwf (hRN ih) ha).2 st1 hlk] at hcl
    have hiff : ∀ st, st ∈ M2.states ↔ st ∈ M.states ∧ M.ReachesF s0 st := by
      intro st
      rw [← h2, foldRemove_states, List.mem_filter]
      constructor
      · rintro ⟨hmem, hpred⟩
        rw [decide_eq_true_iff] at hpred
        have hnameR : st.name ∈ R := by
          by_contra hnr
          exact hpred (List.mem_filter.mpr
            ⟨hmem, by rw [decide_eq_true_iff]; exact hnr⟩)
        obtain ⟨st2, hst2, hname2, hRI2⟩ := hRreach st.name hnameR
        have he : st2 = st := states_name_inj hwf hst2 hmem hname2
        rw [he] at hRI2
        exact ⟨hmem, reachesI_iff_reachesF.mp hRI2⟩
      · rintro ⟨hmem, hRF⟩
        have hnameR : st.name ∈ R := hcompl st (reachesI_iff_reachesF.mpr hRF)
        refine ⟨hmem, ?_⟩
        rw [decide_eq_true_iff]
        intro hcon
        have hc2 := (List.mem_filter.mp hcon).2
        rw [decide_eq_true_iff] at hc2
        exact hc2 hnameR
    refine ⟨hiff, ?_, ?_⟩
    · rw [hiff s0]
      exact ⟨hs0, [], by simp, rfl⟩
    · intro st hst
      have hnameR : st.name ∈ R := by
        have := (hiff st).mp hst
        exact hcompl st (reachesI_iff_reachesF.mpr this.2)
      rw [← h2]
      apply foldRemove_maps
      intro sr hsr
      have hsrR : sr.name ∉ R := by
        have := (List.mem_filter.mp hsr).2
        rw [decide_eq_true_iff] at this
        exact this
      intro heq
      rw [heq] at hnameR
      exact hsrR hnameR

theorem dfa_remove_unreachable_exact_witness :
    (stC ∈ exDFA4p.states ↔ stC ∈ exDFA4.states ∧ exDFA4.ReachesF stA stC) ∧
    stA ∈ exDFA4p.states :=
  have h := dfa_remove_unreachable_exact exDFA4 (by decide) stA (by decide) 10
    exDFA4p (by decide)
  ⟨h.1 stC, h.2.1⟩

theorem dfaFold_ok {M : DFA} (hwf : M.WFd) :
    ∀ {w : List String} {st : State}, st ∈ M.states → (∀ a ∈ w, a ∈ M.symbols) →
    dfaFold M st w = .ok (runPureD M st w) := by
  intro w
  induction w with
  | nil => intro st _ _; rfl
  | cons a rest ih =>
    intro st hst hw
    have hcall := dtf_call_ok hwf hst (hw a (List.mem_cons_self a rest))
    simp only [dfaFold, hcall.1]
    rw [ih hcall.2 (fun b hb => hw b (List.mem_cons_of_mem a hb))]
    rfl

/-- C10: `verify_word` validates only the *stripped* word — a word wrapped in
whitespace around valid symbols raises no `InvalidSymbol` — while
`get_resulting_state` folds the transition function over the *original*
word: the leading whitespace character is fed to the deterministic lookup,
which (whitespace not being an alphabet symbol) fails with
`TransitionFunctionError`, although the stripped word itself runs fine. -/
theorem verify_strips_but_run_does_not (M : DFA) (hwf : M.WFd) (s0 : State)
    (hstart : M.start_state = some s0) (hne : M.symbols ≠ [])
    (hsp : " " ∉ M.symbols)
    (u : List String) (hu : ∀ a ∈ u, a ∈ M.symbols) :
    verify_word M.symbols M.start_state (" " :: u) = .ok () ∧
    M.get_resulting_state (" " :: u) = .error .undefinedTransition ∧
    M.get_resulting_state u = .ok (runPureD M s0 u) := by
  have hs0 : s0 ∈ M.states := hwf.2.2.2.2.2.2.2 s0 (by rw [hstart]; simp)
  have hstrip : pyStrip (" " :: u) = pyStrip u := by
    rw [pyStrip, pyStrip, List.dropWhile_cons, if_pos (by decide)]
  have hallu : ((pyStrip u).all fun a => decide (a ∈ M.symbols)) = true := by
    rw [List.all_eq_true]
    intro a ha
    rw [decide_eq_true_iff]
    exact hu a (mem_of_mem_pyStrip ha)
  have hver : verify_word M.symbols M.start_state (" " :: u) = .ok () := by
    unfold verify_word
    rw [hstrip, if_pos hallu, hstart]
  have hveru : verify_word M.symbols M.start_state u = .ok () := by
    unfold verify_word
    rw [if_pos hallu, hstart]
  have hver2 : verify_word M.symbols (some s0) (" " :: u) = .ok () := by
    rw [← hstart]; exact hver
  have hveru2 : verify_word M.symbols (some s0) u = .ok () := by
    rw [← hstart]; exact hveru
  refine ⟨hver, ?_, ?_⟩
  · simp only [DFA.get_resulting_state, hstart, hver2, dfaFold]
    obtain ⟨b, hb⟩ := List.exists_mem_of_ne_nil M.symbols hne
    have hdb := hwf.2.2.2.2.1 s0 hs0 b hb
    match hrow : alookup s0.name M.tf.transition_map with
    | none =>
      rw [DFA.dentry, hrow] at hdb
      simp at hdb
    | some row =>
      have hent : alookup " " row = none := by
        match hl : alookup " " row with
        | none => rfl
        | some tn =>
          have := hwf.2.2.2.2.2.1 (s0.name, row) (alookup_mem hrow) (" ", tn)
            (alookup_mem hl)
          exact absurd this hsp
      simp only [DTF.call, hrow, hent]
  · simp only [DFA.get_resulting_state, hstart, hveru2]
    exact dfaFold_ok hwf hs0 hu

theorem verify_strips_but_run_does_not_witness :
    verify_word exDFA2.symbols exDFA2.start_state (" " :: ["0"]) = .ok () ∧
    exDFA2.get_resulting_state (" " :: ["0"]) = .error .undefinedTransition ∧
    exDFA2.get_resulting_state ["0"] = .ok (runPureD exDFA2 stA ["0"]) :=
  verify_strips_but_run_does_not exDFA2 (by decide) stA (by decide) (by decide)
    (by decide) ["0"] (by decide)

/-! ### Non-deterministic well-formedness lemmas -/

theorem resolve_names_map {smap : List (String × State)}
    (hsound : ∀ p ∈ smap, p.2.name = p.1) :
    ∀ (l : List String), (∀ n ∈ l, (alookup n smap).isSome = true) →
    (l.filterMap (fun n => alookup n smap)).map State.name = l := by
  intro l
  induction l with
  | nil => intro _; rfl
  | cons n rest ih =>
    intro h
    match hlk : alookup n smap with
    | none =>
      have := h n (List.mem_cons_self n rest)
      rw [hlk] at this
      simp at this
    | some st =>
      have hname : st.name = n := hsound (n, st) (alookup_mem hlk)
      rw [List.filterMap_cons, hlk, List.map_cons, hname,
        ih (fun m hm => h m (List.mem_cons_of_mem n hm))]

theorem ntf_callName_ok {M : NFA} (hwf : M.WF) {n : String}
    (hrow : (alookup n M.tf.transition_map).isSome = true) (a : String) :
    M.tf.callName n a = .ok (M.tf.resolve (M.tf.tgt n a)) ∧
    ((M.tf.resolve (M.tf.tgt n a)).map State.name).toFinset = M.tf.tgt n a ∧
    ∀ t ∈ M.tf.resolve (M.tf.tgt n a), t ∈ M.states := by
  obtain ⟨hnd, hsym, hsound, hcomp, hrows, hres, hstart⟩ := hwf
  match hr : alookup n M.tf.transition_map with
  | none => rw [hr] at hrow; simp at hrow
  | some row =>
    match hent : alookup a row with
    | none =>
      have htgt : M.tf.tgt n a = ∅ := by simp only [NTF.tgt, hr, hent]
      have hresolve : M.tf.resolve (∅ : Finset String) = [] := rfl
      refine ⟨?_, ?_, ?_⟩
      · rw [htgt, hresolve]
        simp only [NTF.callName, NTF.call, hr, hent]
      · rw [htgt, hresolve]
        rfl
      · rw [htgt, hresolve]
        intro t ht
        simp at ht
    | some names =>
      have htgt : M.tf.tgt n a = names := by simp only [NTF.tgt, hr, hent]
      have hall : ∀ m ∈ namesList names, (alookup m M.tf.state_map).isSome = true := by
        intro m hm
        exact hres (n, row) (alookup_mem hr) (a, names) (alookup_mem hent) m
          (mem_namesList.mp hm)
      have hallb : ((namesList names).all
          (fun m => (alookup m M.tf.state_map).isSome)) = true := by
        rw [List.all_eq_true]
        exact hall
      refine ⟨?_, ?_, ?_⟩
      · rw [htgt]
        simp only [NTF.callName, NTF.call, hr, hent, if_pos hallb]
      · rw [htgt]
        show ((NTF.resolve M.tf names).map State.name).toFinset = names
        rw [NTF.resolve, resolve_names_map (fun p hp => (hsound p hp).2) _ hall]
        apply Finset.ext
        intro x
        rw [List.mem_toFinset]
        exact mem_namesList
      · rw [htgt]
        intro t ht
        rw [NTF.resolve] at ht
        obtain ⟨m, hm1, hm2⟩ := List.mem_filterMap.mp ht
        exact (hsound (m, t) (alookup_mem hm2)).1

theorem goodSet_row {M : NFA} (hwf : M.WF) {S : Finset String}
    (hS : M.goodSet S) {n : String} (hn : n ∈ S) :
    (alookup n M.tf.transition_map).isSome = true := by
  obtain ⟨st, hst, hname⟩ := hS n hn
  rw [← hname]
  exact hwf.2.2.2.2.1 st hst

theorem stepN_good {M : NFA} (hwf : M.WF) (S : Finset String)
    (a : String) : M.goodSet (stepN M S a) := by
  intro n hn
  rw [stepN, Finset.mem_biUnion] at hn
  obtain ⟨m, hm, hn2⟩ := hn
  have hsound := hwf.2.2.1
  have hres := hwf.2.2.2.2.2.1
  rw [NTF.tgt] at hn2
  match hr : alookup m M.tf.transition_map with
  | none => simp [hr] at hn2
  | some row =>
    simp only [hr] at hn2
    match hent : alookup a row with
    | none => simp [hent] at hn2
    | some names =>
      simp only [hent] at hn2
      have hsome := hres (m, row) (alookup_mem hr) (a, names) (alookup_mem hent) n hn2
      match hlk : alookup n M.tf.state_map with
      | none => rw [hlk] at hsome; simp at hsome
      | some st =>
        have h2 := hsound (n, st) (alookup_mem hlk)
        exact ⟨st, h2.1, h2.2⟩

theorem foldr_union_mem {g : String → Finset String} {x : String} :
    ∀ (l : List String),
    (x ∈ l.foldr (fun n acc => g n ∪ acc) ∅) ↔ ∃ n ∈ l, x ∈ g n := by
  intro l
  induction l with
  | nil => simp
  | cons n rest ih =>
    rw [List.foldr_cons, Finset.mem_union, ih]
    constructor
    · rintro (h | ⟨m, hm, hx⟩)
      · exact ⟨n, List.mem_cons_self n rest, h⟩
      · exact ⟨m, List.mem_cons_of_mem n hm, hx⟩
    · rintro ⟨m, hm, hx⟩
      rcases List.mem_cons.mp hm with h1 | h1
      · left; rw [← h1]; exact hx
      · right; exact ⟨m, h1, hx⟩

theorem unionCalls_ok {M : NFA} (hwf : M.WF) (a : String) :
    ∀ (l : List String), (∀ n ∈ l, (alookup n M.tf.transition_map).isSome = true) →
    unionCalls M.tf l a = .ok (l.foldr (fun n acc => M.tf.tgt n a ∪ acc) ∅) := by
  intro l
  induction l with
  | nil => intro _; rfl
  | cons n rest ih =>
    intro h
    obtain ⟨hcall, hnames, _⟩ := ntf_callName_ok hwf (h n (List.mem_cons_self n rest)) a
    simp only [unionCalls, hcall, ih (fun m hm => h m (List.mem_cons_of_mem n hm))]
    rw [List.foldr_cons, hnames]

theorem get_next_state_ok {M : NFA} (hwf : M.WF) {S : Finset String}
    (hS : M.goodSet S) {a : String} (ha : a ∈ M.symbols) :
    M.get_next_state S a = .ok (stepN M S a) := by
  rw [NFA.get_next_state, if_pos ha,
    unionCalls_ok hwf a (namesList S)
      (fun n hn => goodSet_row hwf hS (mem_namesList.mp hn))]
  congr 1
  apply Finset.ext
  intro x
  rw [foldr_union_mem, stepN, Finset.mem_biUnion]
  constructor
  · rintro ⟨n, hn, hx⟩
    exact ⟨n, mem_namesList.mp hn, hx⟩
  · rintro ⟨n, hn, hx⟩
    exact ⟨n, mem_namesList.mpr hn, hx⟩

theorem nfaFold_ok {M : NFA} (hwf : M.WF) :
    ∀ {w : List String} {S : Finset String}, M.goodSet S →
    (∀ a ∈ w, a ∈ M.symbols) → nfaFold M S w = .ok (runN M S w) := by
  intro w
  induction w with
  | nil => intro S _ _; rfl
  | cons a rest ih =>
    intro S hS hw
    simp only [nfaFold, get_next_state_ok hwf hS (hw a (List.mem_cons_self a rest))]
    rw [ih (stepN_good hwf S a) (fun b hb => hw b (List.mem_cons_of_mem a hb))]
    rfl

theorem nfa_accepts_ok {M : NFA} (hwf : M.WF) {s0 : State}
    (hstart : M.start_state = some s0) {w : List String}
    (hw : ∀ a ∈ w, a ∈ M.symbols) :
    M.accepts_word w = .ok (anyAcc M.tf.state_map (runN M {s0.name} w)) := by
  have hgood : M.goodSet {s0.name} := by
    intro n hn
    rw [Finset.mem_singleton] at hn
    exact ⟨s0, hwf.2.2.2.2.2.2 s0 (by rw [hstart]; simp), hn.symm⟩
  have hver : verify_word M.symbols M.start_state w = .ok () := by
    unfold verify_word
    rw [if_pos, hstart]
    rw [List.all_eq_true]
    intro x hx
    rw [decide_eq_true_iff]
    exact hw x (mem_of_mem_pyStrip hx)
  have hver2 : verify_word M.symbols (some s0) w = .ok () := by
    rw [← hstart]
    exact hver
  simp only [NFA.accepts_word, NFA.get_resulting_state, hstart, hver2,
    nfaFold_ok hwf hgood hw]
  rfl

theorem imageSetsGo_ok {M : NFA} (hwf : M.WF) {S : Finset String}
    (hS : M.goodSet S) :
    ∀ (syms : List String), (∀ a ∈ syms, a ∈ M.symbols) →
    imageSetsGo M S syms = .ok (syms.map (stepN M S)) := by
  intro syms
  induction syms with
  | nil => intro _; rfl
  | cons a rest ih =>
    intro h
    simp only [imageSetsGo, get_next_state_ok hwf hS (h a (List.mem_cons_self a rest)),
      ih (fun b hb => h b (List.mem_cons_of_mem a hb))]
    rfl

theorem imageSets_ok {M : NFA} (hwf : M.WF) {S : Finset String}
    (hS : M.goodSet S) :
    imageSets M S = .ok (M.symbols.map (stepN M S)) :=
  imageSetsGo_ok hwf hS M.symbols (fun _ ha => ha)

theorem convLoop_spec {M : NFA} (hwf : M.WF) :
    ∀ (fuel : Nat) (toCheck visited : List (Finset String))
      (trs : List (Finset String × List (Finset String)))
      (V : List (Finset String)) (T : List (Finset String × List (Finset String))),
    convLoop M fuel toCheck visited trs = some (.ok (V, T)) →
    (∀ S ∈ toCheck, M.goodSet S) →
    (∀ S ∈ visited, M.goodSet S) →
    trs = visited.map (fun S => (S, M.symbols.map (stepN M S))) →
    (∀ S ∈ visited, ∀ a ∈ M.symbols, stepN M S a ∈ visited ∨ stepN M S a ∈ toCheck) →
    visited.Nodup →
    (T = V.map (fun S => (S, M.symbols.map (stepN M S))) ∧
     (∃ rest, V = visited ++ rest) ∧
     (∀ S ∈ V, M.goodSet S) ∧
     (∀ S ∈ V, ∀ a ∈ M.symbols, stepN M S a ∈ V) ∧
     V.Nodup ∧
     (∀ S ∈ toCheck, S ∈ V)) := by
  intro fuel
  induction fuel with
  | zero =>
    intro toCheck visited trs V T h _ _ _ _ _
    exact Option.noConfusion h
  | succ f ih =>
    intro toCheck visited trs V T hrun hgood1 hgood2 htrs hfront hnd
    match toCheck with
    | [] =>
      simp only [convLoop] at hrun
      injection hrun with h1
      injection h1 with h2
      injection h2 with h3 h4
      subst h3
      subst h4
      refine ⟨htrs, ⟨[], (List.append_nil visited).symm⟩, hgood2, ?_, hnd, ?_⟩
      · intro S hS a ha
        rcases hfront S hS a ha with h | h
        · exact h
        · simp at h
      · intro S hS
        simp at hS
    | S :: rest =>
      by_cases hSv : S ∈ visited
      · rw [convLoop, if_pos hSv] at hrun
        have hfront2 : ∀ S2 ∈ visited, ∀ a ∈ M.symbols,
            stepN M S2 a ∈ visited ∨ stepN M S2 a ∈ rest := by
          intro S2 hS2 a ha
          rcases hfront S2 hS2 a ha with h | h
          · exact Or.inl h
          · rcases List.mem_cons.mp h with h2 | h2
            · rw [h2]
              exact Or.inl hSv
            · exact Or.inr h2
        obtain ⟨c1, ⟨r2, c2⟩, c3, c4, c5, c6⟩ := ih rest visited trs V T hrun
          (fun S2 hS2 => hgood1 S2 (List.mem_cons_of_mem S hS2)) hgood2 htrs hfront2 hnd
        refine ⟨c1, ⟨r2, c2⟩, c3, c4, c5, ?_⟩
        intro S2 hS2
        rcases List.mem_cons.mp hS2 with h2 | h2
        · rw [h2, c2]
          exact List.mem_append_left _ hSv
        · exact c6 S2 h2
      · have hgoodS : M.goodSet S := hgood1 S (List.mem_cons_self S rest)
        rw [convLoop, if_neg hSv] at hrun
        rw [imageSets_ok hwf hgoodS] at hrun
        have hgood1b : ∀ S2 ∈ rest ++ (M.symbols.map (stepN M S)).filter
            (fun T2 => T2 ∉ visited ++ [S]), M.goodSet S2 := by
          intro S2 hS2
          rcases List.mem_append.mp hS2 with h2 | h2
          · exact hgood1 S2 (List.mem_cons_of_mem S h2)
          · obtain ⟨a, _, h4⟩ := List.mem_map.mp (List.mem_of_mem_filter h2)
            rw [← h4]
            exact stepN_good hwf S a
        have hgood2b : ∀ S2 ∈ visited ++ [S], M.goodSet S2 := by
          intro S2 hS2
          rcases List.mem_append.mp hS2 with h2 | h2
          · exact hgood2 S2 h2
          · rw [List.mem_singleton.mp h2]
            exact hgoodS
        have htrsb : trs ++ [(S, M.symbols.map (stepN M S))] =
            (visited ++ [S]).map (fun S2 => (S2, M.symbols.map (stepN M S2))) := by
          rw [List.map_append, ← htrs]
          rfl
        have hfrontb : ∀ S2 ∈ visited ++ [S], ∀ a ∈ M.symbols,
            stepN M S2 a ∈ visited ++ [S] ∨
            stepN M S2 a ∈ rest ++ (M.symbols.map (stepN M S)).filter
              (fun T2 => T2 ∉ visited ++ [S]) := by
          intro S2 hS2 a ha
          rcases List.mem_append.mp hS2 with h2 | h2
          · rcases hfront S2 h2 a ha with h3 | h3
            · exact Or.inl (List.mem_append_left _ h3)
            · rcases List.mem_cons.mp h3 with h4 | h4
              · rw [h4]
                exact Or.inl (List.mem_append_right _ (List.mem_singleton.mpr rfl))
              · exact Or.inr (List.mem_append_left _ h4)
          · rw [List.mem_singleton.mp h2]
            by_cases hin : stepN M S a ∈ visited ++ [S]
            · exact Or.inl hin
            · refine Or.inr (List.mem_append_right _ ?_)
              rw [List.mem_filter]
              refine ⟨List.mem_map.mpr ⟨a, ha, rfl⟩, ?_⟩
              rw [decide_eq_true_iff]
              exact hin
        have hndb : (visited ++ [S]).Nodup := by
          rw [List.nodup_append]
          refine ⟨hnd, List.nodup_singleton S, ?_⟩
          intro x hx
          rw [List.mem_singleton]
          intro he
          rw [he] at hx
          exact hSv hx
        obtain ⟨c1, ⟨r2, c2⟩, c3, c4, c5, c6⟩ := ih _ _ _ V T hrun
          hgood1b hgood2b htrsb hfrontb hndb
        refine ⟨c1, ⟨[S] ++ r2, by rw [c2, List.append_assoc]⟩, c3, c4, c5, ?_⟩
        intro S2 hS2
        rcases List.mem_cons.mp hS2 with h2 | h2
        · rw [h2, c2]
          exact List.mem_append_left _ (List.mem_append_right _ (List.mem_singleton.mpr rfl))
        · exact c6 S2 (List.mem_append_left _ h2)

theorem alookup_range_map {β : Type} (g : Nat → β) :
    ∀ (n i : Nat), i < n →
    alookup (sName i) ((List.range n).map (fun j => (sName j, g j))) = some (g i) := by
  intro n
  induction n with
  | zero => intro i hi; omega
  | succ n ih =>
    intro i hi
    rw [List.range_succ, List.map_append]
    by_cases h : i < n
    · exact alookup_append_left (ih i h)
    · have hin : i = n := by omega
      have hnone : alookup (sName i) ((List.range n).map (fun j => (sName j, g j))) =
          none := by
        apply alookup_eq_none
        intro p hp
        obtain ⟨j, hj, hp2⟩ := List.mem_map.mp hp
        rw [← hp2]
        intro he
        have h5 := sName_inj he
        rw [List.mem_range] at hj
        omega
      rw [alookup_append_right hnone, List.map_singleton, alookup,
        if_pos (by rw [hin]), hin]

theorem rowFold_lookup (g : String → String) :
    ∀ (syms : List String) (acc : List (String × String)) (a : String),
    alookup a ((syms.zip (syms.map g)).foldl (fun r p => aupsert p.1 p.2 r) acc) =
      if a ∈ syms then some (g a) else alookup a acc := by
  intro syms
  induction syms with
  | nil =>
    intro acc a
    rw [if_neg (by simp)]
    rfl
  | cons s rest ih =>
    intro acc a
    rw [List.map_cons, List.zip_cons_cons, List.foldl_cons, ih]
    by_cases h1 : a ∈ rest
    · rw [if_pos h1, if_pos (List.mem_cons_of_mem s h1)]
    · rw [if_neg h1]
      by_cases h2 : a = s
      · rw [if_pos (by rw [h2]; exact List.mem_cons_self s rest)]
        rw [h2]
        exact alookup_aupsert_self s (g s) acc
      · have hns : a ∉ s :: rest := by
          intro h3
          rcases List.mem_cons.mp h3 with h4 | h4
          · exact h2 h4
          · exact h1 h4
        rw [if_neg hns]
        exact alookup_aupsert_ne h2 (g s) acc

theorem convRow_lookup {M : NFA} {V : List (Finset String)} {S : Finset String}
    {a : String} (ha : a ∈ M.symbols) :
    alookup a (convRow M V S) =
      some (sName ((idxOf? (stepN M S a) V).getD 0)) := by
  rw [convRow, rowFold]
  rw [rowFold_lookup (fun b => sName ((idxOf? (stepN M S b) V).getD 0)) M.symbols [] a,
    if_pos ha]

theorem mapNames_ok {V : List (Finset String)} :
    ∀ (l : List (Finset String)), (∀ T2 ∈ l, (idxOf? T2 V).isSome = true) →
    mapNames V l = some (l.map (fun T2 => sName ((idxOf? T2 V).getD 0))) := by
  intro l
  induction l with
  | nil => intro _; rfl
  | cons T2 rest ih =>
    intro h
    have h1 := h T2 (List.mem_cons_self T2 rest)
    match hidx : idxOf? T2 V with
    | none => rw [hidx] at h1; simp at h1
    | some j =>
      simp only [mapNames, nameOfSet, hidx,
        ih (fun U hU => h U (List.mem_cons_of_mem T2 hU))]
      simp [hidx]

theorem mkPartial_add {M : NFA} {V : List (Finset String)} {k : Nat} {S : Finset String}
    (hS : V.get? k = some S) :
    DFA.add_state (mkPartial M V k) (sName k)
      ((M.symbols.map (stepN M S)).map (fun T2 => sName ((idxOf? T2 V).getD 0)))
      (k == 0) (anyAcc M.tf.state_map S)
    = (mkPartial M V (k + 1), .ok (dfaStateOf M V k)) := by
  have hgetD : V.getD k ∅ = S := by
    rw [List.getD_eq_getElem?_getD, ← List.get?_eq_getElem?, hS]
    rfl
  have hdfa : dfaStateOf M V k = ⟨sName k, k == 0, anyAcc M.tf.state_map S⟩ := by
    rw [dfaStateOf, hgetD]
  have hfreshT : ∀ p ∈ (List.range k).map
      (fun j => (sName j, convRow M V (V.getD j ∅))), p.1 ≠ sName k := by
    intro p hp he
    obtain ⟨j, hj, hp2⟩ := List.mem_map.mp hp
    rw [← hp2] at he
    have h5 := sName_inj he
    rw [List.mem_range] at hj
    omega
  have hfreshS : ∀ p ∈ (List.range k).map
      (fun j => (sName j, dfaStateOf M V j)), p.1 ≠ sName k := by
    intro p hp he
    obtain ⟨j, hj, hp2⟩ := List.mem_map.mp hp
    rw [← hp2] at he
    have h5 := sName_inj he
    rw [List.mem_range] at hj
    omega
  have hrow : rowFold M.symbols
      ((M.symbols.map (stepN M S)).map (fun T2 => sName ((idxOf? T2 V).getD 0))) =
      convRow M V (V.getD k ∅) := by
    rw [hgetD, convRow, List.map_map]
    rfl
  simp only [DFA.add_state, mkPartial]
  rw [if_neg (by match k with | 0 => simp | _ + 1 => simp)]
  rw [Prod.mk.injEq]
  constructor
  · rw [DFA.mk.injEq]
    refine ⟨rfl, ?_, ?_, ?_⟩
    · rw [List.range_succ, List.map_append, List.map_singleton, hdfa]
    · match k with
      | 0 => rw [if_pos rfl, ← hdfa]; rfl
      | k + 1 =>
        rw [if_neg (by simp)]
        rfl
    · rw [DTF.mk.injEq]
      refine ⟨rfl, ?_, ?_⟩
      · rw [aupsert_fresh _ hfreshT, hrow, List.range_succ, List.map_append,
          List.map_singleton]
      · rw [aupsert_fresh _ hfreshS, List.range_succ, List.map_append,
          List.map_singleton, hdfa]
  · rw [hdfa]

theorem convBuild_spec {M : NFA} {V : List (Finset String)}
    (hnd : V.Nodup) (hclosed : ∀ S ∈ V, ∀ a ∈ M.symbols, stepN M S a ∈ V) :
    ∀ (W : List (Finset String)) (k : Nat), k ≤ V.length → W = V.drop k →
    convBuildGo M V (mkPartial M V k) k
      (W.map (fun S => (S, M.symbols.map (stepN M S)))) =
      .ok (mkPartial M V V.length) := by
  intro W
  induction W with
  | nil =>
    intro k hk hW
    have hlen : V.length ≤ k := by
      have h1 := congrArg List.length hW
      rw [List.length_drop] at h1
      simp at h1
      omega
    have hkeq : k = V.length := le_antisymm hk hlen
    rw [hkeq]
    rfl
  | cons S W ih =>
    intro k hk hW
    have hget : V.get? k = some S := by
      have h0 : (V.drop k).get? 0 = some S := by
        rw [← hW]
        rfl
      rw [List.get?_eq_getElem?, List.getElem?_drop] at h0
      simpa using h0
    have hklt : k < V.length := by
      by_contra h
      push_neg at h
      rw [List.get?_eq_none.mpr h] at hget
      exact Option.noConfusion hget
    have hSin : S ∈ V := List.get?_mem hget
    have hidxS : idxOf? S V = some k := idxOf?_of_get_nodup hnd hget
    have hmapok : mapNames V (M.symbols.map (stepN M S)) =
        some ((M.symbols.map (stepN M S)).map
          (fun T2 => sName ((idxOf? T2 V).getD 0))) := by
      apply mapNames_ok
      intro T2 hT2
      obtain ⟨a, ha, hT3⟩ := List.mem_map.mp hT2
      rw [← hT3]
      exact idxOf?_of_mem (hclosed S hSin a ha)
    simp only [List.map_cons, convBuildGo, nameOfSet, hidxS, hmapok, Option.map]
    rw [mkPartial_add hget]
    have hW2 : W = V.drop (k + 1) := by
      have h1 : V.drop (k + 1) = (V.drop k).drop 1 := by
        rw [List.drop_drop]
      rw [h1, ← hW]
      rfl
    exact ih (k + 1) hklt hW2

theorem conv_run {M : NFA} {V : List (Finset String)} (hnd : V.Nodup)
    (hclosed : ∀ S ∈ V, ∀ a ∈ M.symbols, stepN M S a ∈ V) :
    ∀ (w : List String), (∀ a ∈ w, a ∈ M.symbols) →
    ∀ (S : Finset String) (k : Nat), V.get? k = some S →
    dfaFold (mkPartial M V V.length) (dfaStateOf M V k) w =
      .ok (dfaStateOf M V ((idxOf? (runN M S w) V).getD 0)) := by
  intro w
  induction w with
  | nil =>
    intro _ S k hget
    have hidx : idxOf? S V = some k := idxOf?_of_get_nodup hnd hget
    simp only [dfaFold, runN, List.foldl_nil, hidx, Option.getD]
  | cons a rest ih =>
    intro hw S k hget
    have ha : a ∈ M.symbols := hw a (List.mem_cons_self a rest)
    have hklt : k < V.length := by
      by_contra h
      push_neg at h
      rw [List.get?_eq_none.mpr h] at hget
      exact Option.noConfusion hget
    have hgetD : V.getD k ∅ = S := by
      rw [List.getD_eq_getElem?_getD, ← List.get?_eq_getElem?, hget]
      rfl
    have hrowlk : alookup (dfaStateOf M V k).name
        ((mkPartial M V V.length).tf.transition_map) =
        some (convRow M V (V.getD k ∅)) :=
      alookup_range_map (fun i => convRow M V (V.getD i ∅)) V.length k hklt
    have hstep : stepN M S a ∈ V := hclosed S (List.get?_mem hget) a ha
    have hidx2 := idxOf?_of_mem hstep
    match hj : idxOf? (stepN M S a) V with
    | none => rw [hj] at hidx2; simp at hidx2
    | some j =>
      have hgetj : V.get? j = some (stepN M S a) := idxOf?_get hj
      have hjlt : j < V.length := by
        by_contra h
        push_neg at h
        rw [List.get?_eq_none.mpr h] at hgetj
        exact Option.noConfusion hgetj
      have hsm : alookup (sName j) ((mkPartial M V V.length).tf.state_map) =
          some (dfaStateOf M V j) :=
        alookup_range_map (fun i => dfaStateOf M V i) V.length j hjlt
      have hentry : alookup a (convRow M V (V.getD k ∅)) = some (sName j) := by
        rw [hgetD, convRow_lookup ha, hj]
        rfl
      have hcall : (mkPartial M V V.length).tf.call (dfaStateOf M V k) a =
          .ok (dfaStateOf M V j) := by
        simp only [DTF.call, hrowlk, hentry, hsm]
      simp only [dfaFold, hcall]
      rw [ih (fun b hb => hw b (List.mem_cons_of_mem a hb)) (stepN M S a) j hgetj]
      rfl

/-- C1: the subset construction preserves the recognized language — for every
well-formed NFA and every word over the declared alphabet, the DFA produced
by `convert_to_dfa` returns exactly the boolean that `NFA.accepts_word`
returns. -/
theorem nfa_to_dfa_preserves_language (M : NFA) (hwf : M.WF) (fuel : Nat) (D : DFA)
    (hconv : NFA.convert_to_dfa M fuel = some (.ok D))
    (w : List String) (hw : ∀ a ∈ w, a ∈ M.symbols) :
    D.accepts_word w = M.accepts_word w := by
  match hstart : M.start_state with
  | none =>
    simp only [NFA.convert_to_dfa, hstart] at hconv
    exact absurd hconv (by simp)
  | some s0 =>
    simp only [NFA.convert_to_dfa, hstart] at hconv
    match hloop : convLoop M fuel [{s0.name}] [] [] with
    | none =>
      rw [hloop] at hconv
      exact absurd hconv (by simp)
    | some (.error e) =>
      rw [hloop] at hconv
      exact absurd hconv (by simp)
    | some (.ok (V, T)) =>
      rw [hloop] at hconv
      injection hconv with h1
      have hs0mem : s0 ∈ M.states := hwf.2.2.2.2.2.2 s0 (by rw [hstart]; simp)
      have hgood0 : M.goodSet {s0.name} := fun n hn =>
        ⟨s0, hs0mem, (Finset.mem_singleton.mp hn).symm⟩
      match fuel, hloop with
      | 0, hloop => exact Option.noConfusion hloop
      | f + 1, hloop =>
        rw [convLoop, if_neg (by simp)] at hloop
        rw [imageSets_ok hwf hgood0] at hloop
        simp only [List.nil_append] at hloop
        have hg1 : ∀ S2 ∈ (M.symbols.map (stepN M {s0.name})).filter
            (fun T2 => T2 ∉ [{s0.name}]), M.goodSet S2 := by
          intro S2 hS2
          obtain ⟨a, _, h4⟩ := List.mem_map.mp (List.mem_of_mem_filter hS2)
          rw [← h4]
          exact stepN_good hwf _ a
        have hg2 : ∀ S2 ∈ [{s0.name}], M.goodSet S2 := by
          intro S2 hS2
          rw [List.mem_singleton.mp hS2]
          exact hgood0
        have hg3 : ([({s0.name}, M.symbols.map (stepN M {s0.name}))] :
            List (Finset String × List (Finset String))) =
            [{s0.name}].map (fun S2 => (S2, M.symbols.map (stepN M S2))) := rfl
        have hg4 : ∀ S2 ∈ [({s0.name} : Finset String)], ∀ a ∈ M.symbols,
            stepN M S2 a ∈ [{s0.name}] ∨
            stepN M S2 a ∈ (M.symbols.map (stepN M {s0.name})).filter
              (fun T2 => T2 ∉ [{s0.name}]) := by
          intro S2 hS2 a ha
          rw [List.mem_singleton.mp hS2]
          by_cases hin : stepN M {s0.name} a ∈ [({s0.name} : Finset String)]
          · exact Or.inl hin
          · refine Or.inr ?_
            rw [List.mem_filter]
            refine ⟨List.mem_map.mpr ⟨a, ha, rfl⟩, ?_⟩
            rw [decide_eq_true_iff]
            exact hin
        obtain ⟨c1, ⟨rest, c2⟩, c3, c4, c5, c6⟩ := convLoop_spec hwf f _ _ _ V T hloop
          hg1 hg2 hg3 hg4 (List.nodup_singleton _)
        have hV0 : V.get? 0 = some {s0.name} := by
          rw [c2]
          rfl
        have hVlen : 0 < V.length := by
          rw [c2]
          simp
        have hbuild := convBuild_spec c5 c4 V 0 (Nat.zero_le _) rfl
        rw [c1] at h1
        have hD : D = mkPartial M V V.length := by
          rw [show mkPartial M V 0 = DFA.init M.symbols from rfl] at hbuild
          rw [h1] at hbuild
          injection hbuild
        have hMacc := nfa_accepts_ok hwf hstart hw
        have hmemw : runN M {s0.name} w ∈ V := by
          have haux : ∀ (u : List String), (∀ a ∈ u, a ∈ M.symbols) →
              ∀ S2 ∈ V, List.foldl (stepN M) S2 u ∈ V := by
            intro u
            induction u with
            | nil => intro _ S2 hS2; exact hS2
            | cons a rst ih2 =>
              intro hu S2 hS2
              rw [List.foldl_cons]
              exact ih2 (fun b hb => hu b (List.mem_cons_of_mem a hb)) _
                (c4 S2 hS2 a (hu a (List.mem_cons_self a rst)))
          exact haux w hw {s0.name} (by rw [c2]; exact List.mem_cons_self _ _)
        have hstartD : (mkPartial M V V.length).start_state =
            some (dfaStateOf M V 0) := by
          show (if V.length = 0 then none else some (dfaStateOf M V 0)) = _
          rw [if_neg (by omega)]
        have hverD : verify_word (mkPartial M V V.length).symbols
            (some (dfaStateOf M V 0)) w = .ok () := by
          show verify_word M.symbols (some (dfaStateOf M V 0)) w = .ok ()
          unfold verify_word
          rw [if_pos]
          rw [List.all_eq_true]
          intro x hx
          rw [decide_eq_true_iff]
          exact hw x (mem_of_mem_pyStrip hx)
        have hrun := conv_run c5 c4 w hw {s0.name} 0 hV0
        have hidxw := idxOf?_of_mem hmemw
        match hjw : idxOf? (runN M {s0.name} w) V with
        | none =>
          rw [hjw] at hidxw
          simp at hidxw
        | some j =>
          have hgetj : V.get? j = some (runN M {s0.name} w) := idxOf?_get hjw
          have hgetDj : V.getD j ∅ = runN M {s0.name} w := by
            rw [List.getD_eq_getElem?_getD, ← List.get?_eq_getElem?, hgetj]
            rfl
          rw [hjw] at hrun
          have hflag : (dfaStateOf M V j).is_accepting =
              anyAcc M.tf.state_map (runN M {s0.name} w) := by
            rw [dfaStateOf, hgetDj]
          rw [hD, DFA.accepts_word, DFA.get_resulting_state]
          rw [hMacc]
          simp only [hstartD, hverD, hrun]
          simp only [Except.map, Option.getD]
          rw [hflag]

theorem nfa_to_dfa_preserves_language_witness :
    exNFA.WF ∧ NFA.convert_to_dfa exNFA 20 = some (.ok exDFA) ∧
    (∀ a ∈ (["1", "1"] : List String), a ∈ exNFA.symbols) ∧
    exDFA.accepts_word ["1", "1"] = exNFA.accepts_word ["1", "1"] :=
  ⟨by decide, by rfl, by decide,
    nfa_to_dfa_preserves_language exNFA (by decide) 20 exDFA (by rfl)
      ["1", "1"] (by decide)⟩

end FSA
